import Mathlib

/-!
Verification of the Hybrid-Agent-Planner core against its specification.

The development shallowly embeds the Python sources:
  * `src/modules/historical_index.py` — text normalization, the
    `difflib.SequenceMatcher`-based string similarity, Jaccard keyword
    similarity, transcript mining, index update, and the two retrieval
    functions `load_similar_examples` / `find_best_cached_answer`;
  * `src/modules/decision.py` — the pure classification part of
    `generate_plan` (fence stripping, solve-signature detection,
    direct-answer extraction);
  * `src/core/loop.py` — `AgentLoop.run`, as a state machine parameterized
    by oracles for the external collaborators (perception, planner LLM,
    sandbox, finalization summarizer).

Machine strings are modelled as `List Char`; Python floats are modelled
as rationals.
-/

namespace HAP

/-- Python `\s` / `str.strip` whitespace (ASCII fragment). -/
def isPySpace (c : Char) : Bool :=
  c = ' ' || c = '\t' || c = '\n' || c = '\r' || c = '\x0b' || c = '\x0c'

/-- Python `str.strip()` on a list of characters: drop whitespace at both ends. -/
def pyStrip (l : List Char) : List Char :=
  ((l.dropWhile isPySpace).reverse.dropWhile isPySpace).reverse

/-- Python `str.strip()` on strings. -/
def pyStripS (s : String) : String :=
  ⟨pyStrip s.data⟩

/-- Python `str.lower()` (ASCII/simple case folding). -/
def pyLower (l : List Char) : List Char :=
  l.map Char.toLower

/-- Does `pre` occur as a prefix of `l`? (Python `str.startswith`.) -/
def startsWithL (l pre : List Char) : Bool :=
  pre.isPrefixOf l

/-- Python `sub in s`: substring containment. -/
def containsSub (l sub : List Char) : Bool :=
  match l with
  | [] => sub.isPrefixOf ([] : List Char)
  | c :: rest => sub.isPrefixOf (c :: rest) || containsSub rest sub

/-- Split at the first occurrence of `sep` (assumed nonempty):
returns the part before and the part after, when `sep` occurs.
Models Python `s.split(sep, 1)`. -/
def splitFirst (l sep : List Char) : Option (List Char × List Char) :=
  match l with
  | [] => if sep.isPrefixOf ([] : List Char) then some ([], []) else none
  | c :: rest =>
    if sep.isPrefixOf (c :: rest) then some ([], (c :: rest).drop sep.length)
    else match splitFirst rest sep with
      | some (pre, post) => some (c :: pre, post)
      | none => none

theorem containsSub_iff_splitFirst (l sep : List Char) :
    containsSub l sep = (splitFirst l sep).isSome := by
  induction l with
  | nil => cases sep <;> simp [containsSub, splitFirst, List.isPrefixOf]
  | cons c rest ih =>
    simp only [containsSub, splitFirst]
    by_cases h : sep.isPrefixOf (c :: rest)
    · simp [h]
    · simp only [h, Bool.false_or, if_neg]
      rw [ih]
      cases splitFirst rest sep <;> simp

/-- One maximal-whitespace-run collapse pass (`re.sub(r"\s+", " ", text)`):
the Boolean records whether the previous character was whitespace. -/
def collapseWsAux : Bool → List Char → List Char
  | _, [] => []
  | prevWs, c :: rest =>
    if isPySpace c then
      if prevWs then collapseWsAux true rest else ' ' :: collapseWsAux true rest
    else c :: collapseWsAux false rest

/-- `_normalize_for_similarity`: lowercase, strip, collapse whitespace runs. -/
def normalizeForSimilarity (l : List Char) : List Char :=
  collapseWsAux false (pyStrip (pyLower l))

/-!  ### `difflib.SequenceMatcher` (with `isjunk = None`)

`_string_similarity` calls `difflib.SequenceMatcher(None, a, b).ratio()`.
The model below follows the stdlib algorithm: `find_longest_match` runs a
row-by-row dynamic program over `b2j` (the indices of each character of
`b`), keeping the first strictly-best block, then extends the block at
both ends; `ratio` is `2*M/T` over the recursive matching-block
decomposition.  With `isjunk = None` the junk set is empty, so the
junk-extension loops of the stdlib can never fire and are omitted. -/

/-- Indices at which character `c` occurs in `b`, ascending (`b2j[c]`). -/
def occurrences (b : List Char) (c : Char) : List Nat :=
  (List.range b.length).filter (fun j => decide (b.get? j = some c))

/-- The `j` values actually processed in one row: `continue` on `j < blo`,
`break` on `j >= bhi` (on the ascending occurrence list the `break` is a
`takeWhile`). -/
def rowIndices (b : List Char) (c : Char) (blo bhi : Nat) : List Nat :=
  ((occurrences b c).takeWhile (fun j => decide (j < bhi))).filter
    (fun j => decide (blo ≤ j))

/-- Current best block of `find_longest_match`. -/
structure FlmBest where
  besti : Nat
  bestj : Nat
  bestsize : Nat
deriving Repr, DecidableEq

/-- Inner-loop body of `find_longest_match`'s dynamic program:
`k = j2len.get(j-1, 0) + 1` (reading the previous row `old`), written into
the new row, and the best block updated on `k > bestsize`. -/
def flmRowStep (i : Nat) (old : Nat → Nat) :
    FlmBest × (Nat → Nat) → Nat → FlmBest × (Nat → Nat)
  | (best, nj), j =>
    let k := (if j = 0 then 0 else old (j - 1)) + 1
    let nj' : Nat → Nat := fun x => if x = j then k else nj x
    let best' : FlmBest :=
      if best.bestsize < k then ⟨i + 1 - k, j + 1 - k, k⟩ else best
    (best', nj')

/-- One row `i` of the dynamic program (`for j in b2j.get(a[i], [])`). -/
def flmRow (a b : List Char) (blo bhi : Nat)
    (st : FlmBest × (Nat → Nat)) (i : Nat) : FlmBest × (Nat → Nat) :=
  (rowIndices b (a.getD i ' ') blo bhi).foldl (flmRowStep i st.2)
    (st.1, fun _ => 0)

/-- All rows `i ∈ [alo, ahi)` of the dynamic program. -/
def flmRows (a b : List Char) (alo ahi blo bhi : Nat) :
    FlmBest × (Nat → Nat) :=
  (List.range' alo (ahi - alo)).foldl (flmRow a b blo bhi)
    (⟨alo, blo, 0⟩, fun _ => 0)

/-- Leftward non-junk extension loop (fuel-bounded `while`). -/
def extendLeft (a b : List Char) (alo blo : Nat) :
    Nat → FlmBest → FlmBest
  | 0, st => st
  | fuel + 1, st =>
    if alo < st.besti ∧ blo < st.bestj ∧
        a.getD (st.besti - 1) ' ' = b.getD (st.bestj - 1) ' ' then
      extendLeft a b alo blo fuel ⟨st.besti - 1, st.bestj - 1, st.bestsize + 1⟩
    else st

/-- Rightward non-junk extension loop (fuel-bounded `while`). -/
def extendRight (a b : List Char) (ahi bhi : Nat) :
    Nat → FlmBest → FlmBest
  | 0, st => st
  | fuel + 1, st =>
    if st.besti + st.bestsize < ahi ∧ st.bestj + st.bestsize < bhi ∧
        a.getD (st.besti + st.bestsize) ' ' =
          b.getD (st.bestj + st.bestsize) ' ' then
      extendRight a b ahi bhi fuel ⟨st.besti, st.bestj, st.bestsize + 1⟩
    else st

/-- The dynamic program's best block, extended leftward.  The fuel
`besti` bounds the number of iterations of the leftward `while` loop. -/
def flmAfterLeft (a b : List Char) (alo ahi blo bhi : Nat) : FlmBest :=
  extendLeft a b alo blo (flmRows a b alo ahi blo bhi).1.besti
    (flmRows a b alo ahi blo bhi).1

/-- `SequenceMatcher.find_longest_match` on the ranges `[alo,ahi) × [blo,bhi)`.
The fuel of the rightward `while` loop bounds its iteration count. -/
def findLongestMatch (a b : List Char) (alo ahi blo bhi : Nat) : FlmBest :=
  extendRight a b ahi bhi
    (ahi - ((flmAfterLeft a b alo ahi blo bhi).besti +
      (flmAfterLeft a b alo ahi blo bhi).bestsize))
    (flmAfterLeft a b alo ahi blo bhi)

/-- Total size of all matching blocks (the quantity `matches` summed by
`ratio` over `get_matching_blocks`), as a fuel-bounded recursion over the
standard longest-match splitting. -/
def matchingBlocksSum (a b : List Char) :
    Nat → Nat × Nat × Nat × Nat → Nat
  | 0, _ => 0
  | fuel + 1, (alo, ahi, blo, bhi) =>
    if (findLongestMatch a b alo ahi blo bhi).bestsize = 0 then 0
    else
      matchingBlocksSum a b fuel
          (alo, (findLongestMatch a b alo ahi blo bhi).besti,
            blo, (findLongestMatch a b alo ahi blo bhi).bestj) +
        (findLongestMatch a b alo ahi blo bhi).bestsize +
        matchingBlocksSum a b fuel
          ((findLongestMatch a b alo ahi blo bhi).besti +
              (findLongestMatch a b alo ahi blo bhi).bestsize, ahi,
            (findLongestMatch a b alo ahi blo bhi).bestj +
              (findLongestMatch a b alo ahi blo bhi).bestsize, bhi)

/-- `SequenceMatcher.ratio()`: `2*M/T`, and `1` when both sequences are
empty (`_calculate_ratio`). -/
def ratioQ (a b : List Char) : ℚ :=
  if a.length + b.length = 0 then 1
  else
    mkRat (2 * (matchingBlocksSum a b (a.length + b.length + 1)
      (0, a.length, 0, b.length) : ℤ)) (a.length + b.length)

theorem ratioQ_eq_div (a b : List Char) (h : a.length + b.length ≠ 0) :
    ratioQ a b = 2 * (matchingBlocksSum a b (a.length + b.length + 1)
        (0, a.length, 0, b.length) : ℚ) / ((a.length + b.length : Nat) : ℚ) := by
  unfold ratioQ
  rw [if_neg h, Rat.mkRat_eq_divInt, Rat.divInt_eq_div]
  push_cast
  ring

/-- `_string_similarity(a, b)`. -/
def stringSimilarity (a b : List Char) : ℚ :=
  ratioQ (normalizeForSimilarity a) (normalizeForSimilarity b)

/-- `_string_similarity` on strings. -/
def stringSimilarityS (a b : String) : ℚ :=
  stringSimilarity a.data b.data

/-! #### Properties of the dynamic program -/

/-- The chain value computed for column `j` (reading the previous row). -/
def flmK (old : Nat → Nat) (j : Nat) : Nat :=
  (if j = 0 then 0 else old (j - 1)) + 1

theorem flmRowStep_eq (i : Nat) (old : Nat → Nat) (best : FlmBest)
    (nj : Nat → Nat) (j : Nat) :
    flmRowStep i old (best, nj) j =
      (if best.bestsize < flmK old j then
          ⟨i + 1 - flmK old j, j + 1 - flmK old j, flmK old j⟩ else best,
        fun x => if x = j then flmK old j else nj x) := rfl

theorem foldl_flmRowStep_fst (i : Nat) (old : Nat → Nat) (js : List Nat)
    (best : FlmBest) (nj : Nat → Nat)
    (h : ∀ j ∈ js, flmK old j ≤ best.bestsize) :
    (js.foldl (flmRowStep i old) (best, nj)).1 = best := by
  induction js generalizing nj with
  | nil => rfl
  | cons j js ih =>
    rw [List.foldl_cons, flmRowStep_eq,
      if_neg (by have := h j (List.mem_cons_self j js); omega)]
    exact ih _ fun x hx => h x (List.mem_cons_of_mem _ hx)

theorem foldl_flmRowStep_value_le (i : Nat) (old : Nat → Nat)
    (js : List Nat) (f : Nat → Nat)
    (hk : ∀ j ∈ js, flmK old j ≤ f j) :
    ∀ best nj, (∀ x, nj x ≤ f x) →
      ∀ x, (js.foldl (flmRowStep i old) (best, nj)).2 x ≤ f x := by
  induction js with
  | nil => intro best nj hnj x; exact hnj x
  | cons j js ih =>
    intro best nj hnj x
    rw [List.foldl_cons, flmRowStep_eq]
    refine ih (fun u hu => hk u (List.mem_cons_of_mem _ hu)) _ _ ?_ x
    intro y
    by_cases hy : y = j
    · simpa [hy] using hk j (List.mem_cons_self j js)
    · simpa [hy] using hnj y

theorem foldl_flmRowStep_value_eq (i : Nat) (old : Nat → Nat)
    (js : List Nat) (x : Nat) (hx : x ∉ js) :
    ∀ best nj, (js.foldl (flmRowStep i old) (best, nj)).2 x = nj x := by
  induction js with
  | nil => intro best nj; rfl
  | cons j js ih =>
    intro best nj
    rw [List.foldl_cons, flmRowStep_eq]
    rw [ih (fun h => hx (List.mem_cons_of_mem _ h))]
    rw [if_neg (by intro h; exact hx (by rw [h]; exact List.mem_cons_self j js))]

/-! #### The diagonal argument: `ratio` of a sequence with itself is `1` -/

theorem occurrences_split (l : List Char) (i : Nat) (hi : i < l.length) :
    occurrences l (l.getD i ' ') =
      (List.range' 0 i).filter (fun j => decide (l.get? j = some (l.getD i ' '))) ++
        i :: (List.range' (i + 1) (l.length - (i + 1))).filter
          (fun j => decide (l.get? j = some (l.getD i ' '))) := by
  unfold occurrences
  rw [List.range_eq_range']
  have hsplit : List.range' 0 l.length =
      List.range' 0 i ++ List.range' i (l.length - i) := by
    have happ := List.range'_append_1 0 i (l.length - i)
    simp only [Nat.zero_add] at happ
    rw [happ]
    congr 1
    omega
  rw [hsplit, List.filter_append]
  congr 1
  have : l.length - i = (l.length - (i + 1)) + 1 := by omega
  rw [this, List.range'_succ, List.filter_cons]
  have hget : l.get? i = some (l.getD i ' ') := by
    rw [List.get?_eq_getElem?, List.getD_eq_getElem?_getD,
      List.getElem?_eq_getElem hi]
    rfl
  rw [if_pos (by rw [decide_eq_true_eq]; exact hget)]

theorem rowIndices_self (l : List Char) (c : Char) :
    rowIndices l c 0 l.length = occurrences l c := by
  unfold rowIndices
  have h1 : (occurrences l c).takeWhile (fun j => decide (j < l.length)) =
      occurrences l c := by
    rw [List.takeWhile_eq_self_iff]
    intro x hx
    unfold occurrences at hx
    have := (List.mem_filter.mp hx).1
    simp only [List.mem_range] at this
    simpa using this
  rw [h1, List.filter_eq_self]
  intro a _
  simp

theorem flmRow_diag (l : List Char) (i : Nat) (hi : i < l.length)
    (best : FlmBest) (old : Nat → Nat)
    (hA : ∀ j, old j ≤ j + 1) (hB : ∀ j, old j ≤ i)
    (hC : (if i = 0 then 0 else old (i - 1)) = i)
    (hbest : best = ⟨0, 0, i⟩) :
    (flmRow l l 0 l.length (best, old) i).1 = ⟨0, 0, i + 1⟩ ∧
      (∀ j, (flmRow l l 0 l.length (best, old) i).2 j ≤ j + 1) ∧
      (∀ j, (flmRow l l 0 l.length (best, old) i).2 j ≤ i + 1) ∧
      (flmRow l l 0 l.length (best, old) i).2 i = i + 1 := by
  have hkd : flmK old i = i + 1 := by unfold flmK; omega
  have hkle1 : ∀ j, flmK old j ≤ j + 1 := by
    intro j; unfold flmK
    rcases Nat.eq_zero_or_pos j with h | h
    · simp [h]
    · rw [if_neg (by omega)]
      have := hA (j - 1); omega
  have hkle2 : ∀ j, flmK old j ≤ i + 1 := by
    intro j; unfold flmK
    rcases Nat.eq_zero_or_pos j with h | h
    · simp [h]
    · rw [if_neg (by omega)]
      have := hB (j - 1); omega
  unfold flmRow
  rw [rowIndices_self, occurrences_split l i hi]
  set p : Nat → Bool := fun j => decide (l.get? j = some (l.getD i ' ')) with hp
  set pre := (List.range' 0 i).filter p with hpre
  set post := (List.range' (i + 1) (l.length - (i + 1))).filter p with hpost
  have hpre_lt : ∀ j ∈ pre, j < i := by
    intro j hj
    have := (List.mem_filter.mp hj).1
    simp only [List.mem_range'_1] at this
    omega
  have hpost_gt : ∀ j ∈ post, i < j := by
    intro j hj
    have := (List.mem_filter.mp hj).1
    simp only [List.mem_range'_1] at this
    omega
  rw [List.foldl_append]
  set s1 := pre.foldl (flmRowStep i old) (best, fun _ => 0) with hs1
  -- the fold over `pre` leaves the best block unchanged
  have hpre_best : s1.1 = best := by
    apply foldl_flmRowStep_fst
    intro j hj
    have hji := hpre_lt j hj
    have h1 := hkle1 j
    rw [hbest]
    show flmK old j ≤ i
    omega
  have hs1v1 : ∀ x, s1.2 x ≤ x + 1 :=
    foldl_flmRowStep_value_le i old pre (fun x => x + 1) (fun j _ => hkle1 j)
      best (fun _ => 0) (fun x => Nat.zero_le _)
  have hs1v2 : ∀ x, s1.2 x ≤ i + 1 :=
    foldl_flmRowStep_value_le i old pre (fun _ => i + 1) (fun j _ => hkle2 j)
      best (fun _ => 0) (fun x => Nat.zero_le _)
  have hs1pair : s1 = (best, s1.2) := by
    rw [← hpre_best]
  rw [hs1pair, List.foldl_cons, flmRowStep_eq, hkd, hbest]
  rw [if_pos (by simp)]
  have hzero : i + 1 - (i + 1) = 0 := by omega
  rw [hzero]
  set nj2 : Nat → Nat := fun x => if x = i then i + 1 else s1.2 x with hnj2
  have hpost_fst :
      ((post.foldl (flmRowStep i old) (⟨0, 0, i + 1⟩, nj2)).1)
        = (⟨0, 0, i + 1⟩ : FlmBest) := by
    apply foldl_flmRowStep_fst
    intro j _
    exact hkle2 j
  refine ⟨hpost_fst, ?_, ?_, ?_⟩
  · refine foldl_flmRowStep_value_le i old post (fun x => x + 1)
      (fun j _ => hkle1 j) _ nj2 ?_
    intro y
    by_cases hy : y = i
    · simp [hnj2, hy]
    · simpa [hnj2, hy] using hs1v1 y
  · refine foldl_flmRowStep_value_le i old post (fun _ => i + 1)
      (fun j _ => hkle2 j) _ nj2 ?_
    intro y
    by_cases hy : y = i
    · simp [hnj2, hy]
    · have := hs1v2 y
      simp [hnj2, hy]
      omega
  · rw [foldl_flmRowStep_value_eq i old post i
      (fun h => by have := hpost_gt i h; omega)]
    simp [hnj2]

theorem flmRows_self_aux (l : List Char) :
    ∀ m, m ≤ l.length →
      ((List.range' 0 m).foldl (flmRow l l 0 l.length)
          (⟨0, 0, 0⟩, fun _ => 0)).1 = ⟨0, 0, m⟩ ∧
        (∀ j, ((List.range' 0 m).foldl (flmRow l l 0 l.length)
          (⟨0, 0, 0⟩, fun _ => 0)).2 j ≤ j + 1) ∧
        (∀ j, ((List.range' 0 m).foldl (flmRow l l 0 l.length)
          (⟨0, 0, 0⟩, fun _ => 0)).2 j ≤ m) ∧
        ((if m = 0 then 0 else ((List.range' 0 m).foldl (flmRow l l 0 l.length)
          (⟨0, 0, 0⟩, fun _ => 0)).2 (m - 1)) = m) := by
  intro m
  induction m with
  | zero => intro _; exact ⟨rfl, fun j => Nat.zero_le _, fun j => Nat.le_refl _, rfl⟩
  | succ m ih =>
    intro hm
    obtain ⟨ihb, ihA, ihB, ihC⟩ := ih (by omega)
    have hconcat : List.range' 0 (m + 1) = List.range' 0 m ++ [m] := by
      have := List.range'_1_concat 0 m
      simpa using this
    rw [hconcat, List.foldl_append, List.foldl_cons, List.foldl_nil]
    set S := (List.range' 0 m).foldl (flmRow l l 0 l.length)
      (⟨0, 0, 0⟩, fun _ => 0) with hS
    have hSpair : S = (S.1, S.2) := rfl
    have hdiag := flmRow_diag l m (by omega) S.1 S.2 ihA ihB ihC ihb
    rw [hSpair]
    refine ⟨hdiag.1, hdiag.2.1, hdiag.2.2.1, ?_⟩
    rw [if_neg (Nat.succ_ne_zero m)]
    simpa using hdiag.2.2.2

theorem findLongestMatch_self (l : List Char) :
    findLongestMatch l l 0 l.length 0 l.length = ⟨0, 0, l.length⟩ := by
  have hrows : (flmRows l l 0 l.length 0 l.length).1 = ⟨0, 0, l.length⟩ := by
    have h := (flmRows_self_aux l l.length (Nat.le_refl _)).1
    unfold flmRows
    rw [Nat.sub_zero]
    exact h
  have hafter : flmAfterLeft l l 0 l.length 0 l.length = ⟨0, 0, l.length⟩ := by
    unfold flmAfterLeft
    rw [hrows]
    rfl
  unfold findLongestMatch
  rw [hafter]
  show extendRight l l l.length l.length (l.length - (0 + l.length)) _ = _
  have h0 : l.length - (0 + l.length) = 0 := by omega
  rw [h0]
  rfl

theorem extendLeft_of_stuck (a b : List Char) (alo blo : Nat) (fuel : Nat)
    (st : FlmBest) (h : ¬ alo < st.besti) :
    extendLeft a b alo blo fuel st = st := by
  cases fuel with
  | zero => rfl
  | succ fuel =>
    unfold extendLeft
    rw [if_neg (by intro hc; exact h hc.1)]

theorem findLongestMatch_empty_range (a b : List Char) (alo blo bhi : Nat) :
    findLongestMatch a b alo alo blo bhi = ⟨alo, blo, 0⟩ := by
  have hrows : (flmRows a b alo alo blo bhi).1 = ⟨alo, blo, 0⟩ := by
    unfold flmRows
    rw [Nat.sub_self, List.range'_zero, List.foldl_nil]
  have hafter : flmAfterLeft a b alo alo blo bhi = ⟨alo, blo, 0⟩ := by
    unfold flmAfterLeft
    rw [hrows]
    exact extendLeft_of_stuck a b alo blo _ _ (by simp)
  unfold findLongestMatch
  rw [hafter]
  show extendRight a b alo bhi (alo - (alo + 0)) _ = _
  have h0 : alo - (alo + 0) = 0 := by omega
  rw [h0]
  rfl

theorem matchingBlocksSum_empty_range (a b : List Char) (fuel : Nat)
    (alo blo bhi : Nat) :
    matchingBlocksSum a b fuel (alo, alo, blo, bhi) = 0 := by
  cases fuel with
  | zero => rfl
  | succ fuel =>
    unfold matchingBlocksSum
    rw [findLongestMatch_empty_range]
    rfl

theorem matchingBlocksSum_self (l : List Char) (fuel : Nat) (hf : 1 ≤ fuel) :
    matchingBlocksSum l l fuel (0, l.length, 0, l.length) = l.length := by
  cases fuel with
  | zero => omega
  | succ fuel =>
    unfold matchingBlocksSum
    rw [findLongestMatch_self]
    by_cases h : l.length = 0
    · simp [h]
    · rw [if_neg (by simpa using h)]
      show matchingBlocksSum l l fuel (0, 0, 0, 0) + l.length +
          matchingBlocksSum l l fuel
            (0 + l.length, l.length, 0 + l.length, l.length) = l.length
      rw [Nat.zero_add]
      rw [matchingBlocksSum_empty_range, matchingBlocksSum_empty_range]
      omega

/-- `SequenceMatcher(None, x, x).ratio()` is `1` for every sequence `x`. -/
theorem ratioQ_self (l : List Char) : ratioQ l l = 1 := by
  by_cases h : l.length + l.length = 0
  · unfold ratioQ; rw [if_pos h]
  · rw [ratioQ_eq_div l l h, matchingBlocksSum_self l _ (by omega)]
    have hln : (l.length : ℚ) ≠ 0 := by
      have h0 : l.length ≠ 0 := by omega
      exact_mod_cast h0
    push_cast
    field_simp
    ring

/-- `_string_similarity` of two strings with equal normalizations is `1`;
in particular it is `1` when the strings are equal. -/
theorem stringSimilarity_self (a b : List Char)
    (h : normalizeForSimilarity a = normalizeForSimilarity b) :
    stringSimilarity a b = 1 := by
  unfold stringSimilarity
  rw [h]
  exact ratioQ_self _

/-! #### Range bounds of the longest-match block, and `ratio ≤ 1` -/

/-- The best block stays inside the searched ranges. -/
def FlmInRange (alo ahi blo bhi : Nat) (st : FlmBest) : Prop :=
  alo ≤ st.besti ∧ st.besti + st.bestsize ≤ ahi ∧
    blo ≤ st.bestj ∧ st.bestj + st.bestsize ≤ bhi

theorem mem_rowIndices (b : List Char) (c : Char) (blo bhi j : Nat)
    (hj : j ∈ rowIndices b c blo bhi) : blo ≤ j ∧ j < bhi := by
  unfold rowIndices at hj
  have h1 := List.mem_filter.mp hj
  have h2 := List.mem_takeWhile_imp h1.1
  constructor
  · simpa using h1.2
  · simpa using h2

theorem foldl_flmRowStep_inRange (a b : List Char) (alo ahi blo bhi i : Nat)
    (hialo : alo ≤ i) (hiahi : i < ahi) (old : Nat → Nat)
    (hold : ∀ j, old j ≤ i - alo ∧ old j ≤ j + 1 - blo) (js : List Nat)
    (hjs : ∀ j ∈ js, blo ≤ j ∧ j < bhi) :
    ∀ best nj, FlmInRange alo ahi blo bhi best →
      (∀ x, nj x ≤ i + 1 - alo ∧ nj x ≤ x + 1 - blo) →
      FlmInRange alo ahi blo bhi
          (js.foldl (flmRowStep i old) (best, nj)).1 ∧
        (∀ x, (js.foldl (flmRowStep i old) (best, nj)).2 x ≤ i + 1 - alo ∧
          (js.foldl (flmRowStep i old) (best, nj)).2 x ≤ x + 1 - blo) := by
  induction js with
  | nil => intro best nj hbest hnj; exact ⟨hbest, hnj⟩
  | cons j js ih =>
    intro best nj hbest hnj
    have hjmem := hjs j (List.mem_cons_self j js)
    have hk1 : flmK old j ≤ i + 1 - alo := by
      unfold flmK
      rcases Nat.eq_zero_or_pos j with h | h
      · rw [if_pos h]; omega
      · rw [if_neg (by omega)]
        have := (hold (j - 1)).1
        omega
    have hk2 : flmK old j ≤ j + 1 - blo := by
      unfold flmK
      rcases Nat.eq_zero_or_pos j with h | h
      · have hblo : blo ≤ j := hjmem.1
        rw [if_pos h]
        omega
      · rw [if_neg (by omega)]
        have := (hold (j - 1)).2
        omega
    rw [List.foldl_cons, flmRowStep_eq]
    refine ih (fun u hu => hjs u (List.mem_cons_of_mem _ hu)) _ _ ?_ ?_
    · by_cases hcase : best.bestsize < flmK old j
      · rw [if_pos hcase]
        refine ⟨?_, ?_, ?_, ?_⟩
        · show alo ≤ i + 1 - flmK old j
          omega
        · show i + 1 - flmK old j + flmK old j ≤ ahi
          omega
        · show blo ≤ j + 1 - flmK old j
          omega
        · show j + 1 - flmK old j + flmK old j ≤ bhi
          omega
      · rw [if_neg hcase]; exact hbest
    · intro x
      by_cases hx : x = j
      · subst hx
        rw [if_pos rfl]
        exact ⟨hk1, hk2⟩
      · rw [if_neg hx]
        exact hnj x

theorem flmRows_inRange (a b : List Char) (alo blo bhi : Nat)
    (hb : blo ≤ bhi) :
    ∀ m ahi, ahi = alo + m → alo ≤ ahi →
      FlmInRange alo ahi blo bhi (flmRows a b alo ahi blo bhi).1 ∧
        (∀ x, (flmRows a b alo ahi blo bhi).2 x ≤ ahi - alo ∧
          (flmRows a b alo ahi blo bhi).2 x ≤ x + 1 - blo) := by
  intro m
  induction m with
  | zero =>
    intro ahi hm hle
    unfold flmRows
    have h0 : ahi - alo = 0 := by omega
    rw [h0, List.range'_zero, List.foldl_nil]
    exact ⟨⟨Nat.le_refl _, by show alo + 0 ≤ ahi; omega,
      Nat.le_refl _, by show blo + 0 ≤ bhi; omega⟩,
      fun x => ⟨Nat.zero_le _, Nat.zero_le _⟩⟩
  | succ m ih =>
    intro ahi hm hle
    have hprev := ih (alo + m) rfl (by omega)
    unfold flmRows at hprev ⊢
    have hm1 : ahi - alo = m + 1 := by omega
    have hm2 : alo + m - alo = m := by omega
    rw [hm1, List.range'_1_concat, List.foldl_append, List.foldl_cons,
      List.foldl_nil]
    rw [hm2] at hprev
    set S := (List.range' alo m).foldl (flmRow a b blo bhi)
      (⟨alo, blo, 0⟩, fun _ => 0) with hS
    obtain ⟨hSbest, hSval⟩ := hprev
    -- `FlmInRange` for `alo + m` widens to `ahi = alo + m + 1`
    have hSbest' : FlmInRange alo ahi blo bhi S.1 := by
      obtain ⟨h1, h2, h3, h4⟩ := hSbest
      exact ⟨h1, by omega, h3, h4⟩
    have hrow := foldl_flmRowStep_inRange a b alo ahi blo bhi (alo + m)
      (by omega) (by omega) S.2
      (fun j => ⟨by have := (hSval j).1; omega, (hSval j).2⟩)
      (rowIndices b (a.getD (alo + m) ' ') blo bhi)
      (fun j hj => mem_rowIndices b _ blo bhi j hj)
      S.1 (fun _ => 0) hSbest' (fun x => ⟨Nat.zero_le _, Nat.zero_le _⟩)
    unfold flmRow
    constructor
    · exact hrow.1
    · intro x
      have := hrow.2 x
      constructor
      · have hx := this.1; omega
      · exact this.2

theorem extendLeft_inRange (a b : List Char) (alo ahi blo bhi : Nat) :
    ∀ fuel st, FlmInRange alo ahi blo bhi st →
      FlmInRange alo ahi blo bhi (extendLeft a b alo blo fuel st) := by
  intro fuel
  induction fuel with
  | zero => intro st h; exact h
  | succ fuel ih =>
    intro st h
    unfold extendLeft
    by_cases hc : alo < st.besti ∧ blo < st.bestj ∧
        a.getD (st.besti - 1) ' ' = b.getD (st.bestj - 1) ' '
    · rw [if_pos hc]
      refine ih _ ?_
      obtain ⟨h1, h2, h3, h4⟩ := h
      exact ⟨by show alo ≤ st.besti - 1; omega,
        by show st.besti - 1 + (st.bestsize + 1) ≤ ahi; omega,
        by show blo ≤ st.bestj - 1; omega,
        by show st.bestj - 1 + (st.bestsize + 1) ≤ bhi; omega⟩
    · rw [if_neg hc]; exact h

theorem extendRight_inRange (a b : List Char) (alo ahi blo bhi : Nat) :
    ∀ fuel st, FlmInRange alo ahi blo bhi st →
      FlmInRange alo ahi blo bhi (extendRight a b ahi bhi fuel st) := by
  intro fuel
  induction fuel with
  | zero => intro st h; exact h
  | succ fuel ih =>
    intro st h
    unfold extendRight
    by_cases hc : st.besti + st.bestsize < ahi ∧ st.bestj + st.bestsize < bhi ∧
        a.getD (st.besti + st.bestsize) ' ' = b.getD (st.bestj + st.bestsize) ' '
    · rw [if_pos hc]
      refine ih _ ?_
      obtain ⟨h1, h2, h3, h4⟩ := h
      exact ⟨by show alo ≤ st.besti; omega,
        by show st.besti + (st.bestsize + 1) ≤ ahi; omega,
        by show blo ≤ st.bestj; omega,
        by show st.bestj + (st.bestsize + 1) ≤ bhi; omega⟩
    · rw [if_neg hc]; exact h

theorem findLongestMatch_inRange (a b : List Char) (alo ahi blo bhi : Nat)
    (ha : alo ≤ ahi) (hb : blo ≤ bhi) :
    FlmInRange alo ahi blo bhi (findLongestMatch a b alo ahi blo bhi) := by
  have hrows := (flmRows_inRange a b alo blo bhi hb (ahi - alo) ahi
    (by omega) ha).1
  have hleft : FlmInRange alo ahi blo bhi (flmAfterLeft a b alo ahi blo bhi) :=
    extendLeft_inRange a b alo ahi blo bhi _ _ hrows
  exact extendRight_inRange a b alo ahi blo bhi _ _ hleft

theorem matchingBlocksSum_le (a b : List Char) :
    ∀ fuel alo ahi blo bhi, alo ≤ ahi → blo ≤ bhi →
      matchingBlocksSum a b fuel (alo, ahi, blo, bhi) ≤ ahi - alo ∧
        matchingBlocksSum a b fuel (alo, ahi, blo, bhi) ≤ bhi - blo := by
  intro fuel
  induction fuel with
  | zero => intro alo ahi blo bhi _ _; exact ⟨Nat.zero_le _, Nat.zero_le _⟩
  | succ fuel ih =>
    intro alo ahi blo bhi ha hb
    obtain ⟨h1, h2, h3, h4⟩ := findLongestMatch_inRange a b alo ahi blo bhi ha hb
    unfold matchingBlocksSum
    by_cases hz : (findLongestMatch a b alo ahi blo bhi).bestsize = 0
    · rw [if_pos hz]; exact ⟨Nat.zero_le _, Nat.zero_le _⟩
    · rw [if_neg hz]
      have hL := ih alo (findLongestMatch a b alo ahi blo bhi).besti blo
        (findLongestMatch a b alo ahi blo bhi).bestj h1 h3
      have hR := ih ((findLongestMatch a b alo ahi blo bhi).besti +
          (findLongestMatch a b alo ahi blo bhi).bestsize) ahi
        ((findLongestMatch a b alo ahi blo bhi).bestj +
          (findLongestMatch a b alo ahi blo bhi).bestsize) bhi h2 h4
      constructor
      · have := hL.1; have := hR.1; omega
      · have := hL.2; have := hR.2; omega

/-- `SequenceMatcher.ratio()` never exceeds `1`. -/
theorem ratioQ_le_one (a b : List Char) : ratioQ a b ≤ 1 := by
  by_cases h : a.length + b.length = 0
  · unfold ratioQ; rw [if_pos h]
  · rw [ratioQ_eq_div a b h]
    have hms := matchingBlocksSum_le a b (a.length + b.length + 1)
      0 a.length 0 b.length (Nat.zero_le _) (Nat.zero_le _)
    set M := matchingBlocksSum a b (a.length + b.length + 1)
      (0, a.length, 0, b.length) with hM
    have h2M : 2 * M ≤ a.length + b.length := by
      have := hms.1; have := hms.2; omega
    have hpos : (0 : ℚ) < ((a.length + b.length : Nat) : ℚ) := by
      exact_mod_cast Nat.pos_of_ne_zero h
    rw [div_le_one hpos]
    have hle : ((2 * M : Nat) : ℚ) ≤ ((a.length + b.length : Nat) : ℚ) := by
      exact_mod_cast h2M
    push_cast at hle ⊢
    linarith

/-- `SequenceMatcher.ratio()` is nonnegative. -/
theorem ratioQ_nonneg (a b : List Char) : 0 ≤ ratioQ a b := by
  by_cases h : a.length + b.length = 0
  · unfold ratioQ; rw [if_pos h]; norm_num
  · rw [ratioQ_eq_div a b h]; positivity

theorem stringSimilarity_le_one (a b : List Char) :
    stringSimilarity a b ≤ 1 := ratioQ_le_one _ _

theorem stringSimilarity_nonneg (a b : List Char) :
    0 ≤ stringSimilarity a b := ratioQ_nonneg _ _

/-! ### `historical_index.py` — data model, mining, update and retrieval -/

/-- `_STOPWORDS`. -/
def STOPWORDS : List String :=
  ["the", "is", "a", "an", "of", "and", "or", "to", "in", "on", "for",
   "with", "at", "by", "from", "as", "about", "what", "which", "who",
   "how", "much", "many", "when", "where", "why", "do", "does", "did",
   "his", "her", "their", "its", "this", "that", "these", "those"]

/-- A character matched by `[a-z0-9]` (the tokenizer runs on lowered text). -/
def isAlnumLower (c : Char) : Bool :=
  ('a' ≤ c && c ≤ 'z') || ('0' ≤ c && c ≤ '9')

/-- `re.findall(r"[a-z0-9]+", text)`: maximal alphanumeric runs; `cur` holds
the current token reversed. -/
def tokenizeAux (cur : List Char) : List Char → List String
  | [] => if cur.isEmpty then [] else [⟨cur.reverse⟩]
  | c :: rest =>
    if isAlnumLower c then tokenizeAux (c :: cur) rest
    else if cur.isEmpty then tokenizeAux [] rest
    else (⟨cur.reverse⟩ : String) :: tokenizeAux [] rest

/-- `_normalize_text`: lowercase, tokenize, drop stopwords. -/
def normalizeText (s : String) : List String :=
  (tokenizeAux [] (pyLower s.data)).filter (fun t => decide (t ∉ STOPWORDS))

/-- `_jaccard_similarity` on keyword lists viewed as sets. -/
def jaccardSimilarity (a b : List String) : ℚ :=
  if a.toFinset = ∅ ∨ b.toFinset = ∅ then 0
  else mkRat ((a.toFinset ∩ b.toFinset).card : ℤ)
    ((a.toFinset ∪ b.toFinset).card)

/-- `str.startswith` on strings. -/
def pyStartsWith (s pre : String) : Bool :=
  startsWithL s.data pre.data

/-- The `HistoricalExample` dataclass. -/
structure HistoricalExample where
  session_id : String
  turn_index : Nat
  user_query : String
  final_answer : String
  tools_used : List String
  successful_tools : List String
  tags : List String
  keywords : List String
deriving Repr, DecidableEq

/-! #### `find_best_cached_answer` -/

/-- The scanning loop of `find_best_cached_answer`: records without the
`FINAL_ANSWER:` prefix are skipped; the best (strictly greater) similarity
and its answer are tracked. -/
def findBestLoop (q : String) : List HistoricalExample → Option String → ℚ →
    Option String × ℚ
  | [], best, bestSim => (best, bestSim)
  | r :: rs, best, bestSim =>
    if pyStartsWith r.final_answer "FINAL_ANSWER:" then
      if bestSim < stringSimilarityS q r.user_query then
        findBestLoop q rs (some r.final_answer) (stringSimilarityS q r.user_query)
      else findBestLoop q rs best bestSim
    else findBestLoop q rs best bestSim

/-- `find_best_cached_answer(user_query, min_similarity)` over a loaded
index; the final guard `if best and best_sim >= min_similarity` requires a
non-`None`, non-empty answer. -/
def find_best_cached_answer (user_query : String) (min_similarity : ℚ)
    (index : List HistoricalExample) : Option String :=
  if index = [] then none
  else
    match findBestLoop user_query index none 0 with
    | (some best, bestSim) =>
      if best ≠ "" ∧ min_similarity ≤ bestSim then some best else none
    | (none, _) => none

/-! #### `load_similar_examples` -/

/-- `item.get("keywords") or _normalize_text(uq)`. -/
def kwOf (r : HistoricalExample) : List String :=
  if r.keywords = [] then normalizeText r.user_query else r.keywords

/-- The literal placeholder excluded by `load_similar_examples`. -/
def COULD_NOT_GENERATE : String :=
  "FINAL_ANSWER: [Could not generate valid solve()]"

/-- The `scored` list: keep prefix-carrying, non-placeholder records with
strictly positive Jaccard similarity; each entry carries the similarity and
the record's original store position. -/
def scoredExamples (q : String) :
    List (Nat × HistoricalExample) → List (ℚ × Nat × HistoricalExample)
  | [] => []
  | (i, r) :: rest =>
    if pyStartsWith r.final_answer "FINAL_ANSWER:" ∧
        pyStripS r.final_answer ≠ COULD_NOT_GENERATE ∧
        0 < jaccardSimilarity (normalizeText q) (kwOf r) then
      (jaccardSimilarity (normalizeText q) (kwOf r), i, r) ::
        scoredExamples q rest
    else scoredExamples q rest

/-- Insertion step of a stable descending sort on the similarity key
(`scored.sort(key=lambda x: x[0], reverse=True)`; CPython's sort is
stable, so an element goes before the first strictly smaller key). -/
def insertDescBySim (x : ℚ × Nat × HistoricalExample) :
    List (ℚ × Nat × HistoricalExample) → List (ℚ × Nat × HistoricalExample)
  | [] => [x]
  | y :: ys => if y.1 ≤ x.1 then x :: y :: ys else y :: insertDescBySim x ys

/-- Stable descending sort by similarity. -/
def sortDescBySim :
    List (ℚ × Nat × HistoricalExample) → List (ℚ × Nat × HistoricalExample)
  | [] => []
  | x :: xs => insertDescBySim x (sortDescBySim xs)

/-- `load_similar_examples(user_query, top_k)` over a loaded index. -/
def load_similar_examples (user_query : String) (top_k : Nat)
    (index : List HistoricalExample) : List HistoricalExample :=
  ((sortDescBySim (scoredExamples user_query index.enum)).take top_k).map
    (fun t => t.2.2)

/-! #### Transcript mining (`_parse_session_memory`) -/

/-- One session-memory event, with exactly the fields the miner reads
(`dict.get` of an absent key is `None`, hence the `Option`s; `text` and
`tags` are read with an `or`-default). -/
structure Event where
  type : Option String
  text : String
  tool_name : Option String
  success : Option Bool
  final_answer : Option String
  tool_result_result : Option String
  tags : List String
deriving Repr, DecidableEq

/-- The run-start marker. -/
def SESSION_MARKER : String := "Started new session with input:"

/-- `_extract_user_query`. -/
def extractUserQuery (txt : String) : Option String :=
  match splitFirst txt.data SESSION_MARKER.data with
  | none => none
  | some (_, afterL) =>
    match splitFirst (pyStrip afterL) " at ".data with
    | some (pre, _) =>
      if pyStrip pre = [] then none else some ⟨pyStrip pre⟩
    | none =>
      if pyStrip afterL = [] then none else some ⟨pyStrip afterL⟩

/-- The `tool_result.result` fallback of `_extract_final_answer`. -/
def extractFromToolResult (e : Event) : Option String :=
  match e.tool_result_result with
  | some r => if pyStartsWith r "FINAL_ANSWER:" then some r else none
  | none => none

/-- `_extract_final_answer`: prefer the explicit `final_answer` field. -/
def extractFinalAnswer (e : Event) : Option String :=
  match e.final_answer with
  | some fa =>
    if pyStartsWith fa "FINAL_ANSWER:" then some fa else extractFromToolResult e
  | none => extractFromToolResult e

/-- `_should_index_final_answer`: the junk filter. -/
def shouldIndexFinalAnswer (fa : String) : Bool :=
  pyStartsWith fa "FINAL_ANSWER:" &&
    !containsSub (pyLower fa.data) "could not generate".data &&
    !containsSub (pyLower fa.data) "unknown".data &&
    !containsSub (pyLower fa.data) "unexpected".data

/-- `list(dict.fromkeys(xs))`: de-duplication keeping first occurrences. -/
def pyDedupAux (seen : List String) : List String → List String
  | [] => []
  | x :: xs =>
    if x ∈ seen then pyDedupAux seen xs else x :: pyDedupAux (x :: seen) xs

def pyDedup (xs : List String) : List String := pyDedupAux [] xs

/-- Per-turn accumulator of the inner scanning loop. -/
structure TurnAcc where
  tools_used : List String
  successful_tools : List String
  tags : List String
  final_answer : Option String
deriving Repr, DecidableEq

/-- The inner loop of `_parse_session_memory`: scan forward until the next
`run_metadata` event, collecting tool names, successes, tags and the last
well-formed final answer; returns the accumulator and the remaining
events. -/
def scanTurn : List Event → TurnAcc → TurnAcc × List Event
  | [], acc => (acc, [])
  | e :: rest, acc =>
    if e.type = some "run_metadata" then (acc, e :: rest)
    else if e.type = some "tool_output" then
      scanTurn rest
        (let withTool : TurnAcc :=
          match e.tool_name with
          | some tn =>
            if tn ≠ "" then
              { acc with
                tools_used := acc.tools_used ++ [tn]
                successful_tools :=
                  if e.success = some true then acc.successful_tools ++ [tn]
                  else acc.successful_tools }
            else acc
          | none => acc
        let withFa : TurnAcc :=
          match extractFinalAnswer e with
          | some fa => { withTool with final_answer := some fa }
          | none => withTool
        { withFa with tags := withFa.tags ++ e.tags })
    else scanTurn rest acc

theorem scanTurn_length (evts : List Event) :
    ∀ acc, (scanTurn evts acc).2.length ≤ evts.length := by
  induction evts with
  | nil => intro acc; exact Nat.le_refl _
  | cons e rest ih =>
    intro acc
    unfold scanTurn
    by_cases h1 : e.type = some "run_metadata"
    · rw [if_pos h1]
    · rw [if_neg h1]
      by_cases h2 : e.type = some "tool_output"
      · rw [if_pos h2]
        exact Nat.le_succ_of_le (ih _)
      · rw [if_neg h2]
        exact Nat.le_succ_of_le (ih _)

/-- The outer loop of `_parse_session_memory`, on fuel (one unit per
run-start; each recursion drops at least one event, so any fuel above the
event count is enough, `parseLoopF_congr`): find run-start events, extract
the query, scan the turn, and keep it when a final answer passes the junk
filter; `turn_index` increases only on kept turns. -/
def parseLoopF (session_id : String) :
    Nat → List Event → Nat → List HistoricalExample
  | 0, _, _ => []
  | _, [], _ => []
  | fuel + 1, e :: rest, turnIdx =>
    if e.type = some "run_metadata" ∧
        containsSub e.text.data SESSION_MARKER.data then
      match extractUserQuery e.text with
      | none => parseLoopF session_id fuel rest turnIdx
      | some uq =>
        match scanTurn rest ⟨[], [], [], none⟩ with
        | (acc, remaining) =>
          match acc.final_answer with
          | some fa =>
            if shouldIndexFinalAnswer fa then
              ⟨session_id, turnIdx, uq, fa, pyDedup acc.tools_used,
                pyDedup acc.successful_tools, pyDedup acc.tags,
                normalizeText uq⟩ ::
                parseLoopF session_id fuel remaining (turnIdx + 1)
            else parseLoopF session_id fuel remaining turnIdx
          | none => parseLoopF session_id fuel remaining turnIdx
    else parseLoopF session_id fuel rest turnIdx

/-- `_parse_session_memory(memory_path, session_id)` on a decoded
transcript. -/
def parseSessionMemory (events : List Event) (session_id : String) :
    List HistoricalExample :=
  parseLoopF session_id (events.length + 1) events 0

theorem parseLoopF_congr (session_id : String) :
    ∀ fuel fuel' events turnIdx, events.length < fuel →
      events.length < fuel' →
      parseLoopF session_id fuel events turnIdx =
        parseLoopF session_id fuel' events turnIdx := by
  intro fuel
  induction fuel with
  | zero => intro fuel' events _ h _; omega
  | succ fuel ih =>
    intro fuel' events turnIdx h h'
    cases fuel' with
    | zero => omega
    | succ fuel' =>
      cases events with
      | nil => rfl
      | cons e rest =>
        show (if _ then _ else _) = (if _ then _ else _)
        by_cases hc : e.type = some "run_metadata" ∧
            containsSub e.text.data SESSION_MARKER.data
        · rw [if_pos hc, if_pos hc]
          cases extractUserQuery e.text with
          | none =>
            exact ih fuel' rest turnIdx (by simp at h; omega)
              (by simp at h'; omega)
          | some uq =>
            have hscan := scanTurn_length rest (⟨[], [], [], none⟩ : TurnAcc)
            cases hsc : scanTurn rest ⟨[], [], [], none⟩ with
            | mk acc remaining =>
              rw [hsc] at hscan
              simp only at hscan
              have hrem : remaining.length < fuel ∧ remaining.length < fuel' := by
                simp at h h'
                omega
              obtain ⟨tools, succ, tags, fa⟩ := acc
              cases fa with
              | none => exact ih fuel' remaining turnIdx hrem.1 hrem.2
              | some fa =>
                show (if _ then _ else _) = (if _ then _ else _)
                by_cases hidx : shouldIndexFinalAnswer fa
                · rw [if_pos hidx, if_pos hidx,
                    ih fuel' remaining (turnIdx + 1) hrem.1 hrem.2]
                · rw [if_neg hidx, if_neg hidx]
                  exact ih fuel' remaining turnIdx hrem.1 hrem.2
        · rw [if_neg hc, if_neg hc]
          exact ih fuel' rest turnIdx (by simp at h; omega)
            (by simp at h'; omega)

/-! #### `update_index_for_session` -/

/-- The identity key `(session_id, turn_index)`. -/
def exKey (r : HistoricalExample) : String × Nat :=
  (r.session_id, r.turn_index)

/-- The append loop of `update_index_for_session`: skip mined examples
whose key is already present, append the rest, extending the key set. -/
def updateLoop : List HistoricalExample → List HistoricalExample →
    List (String × Nat) → List HistoricalExample
  | [], index, _ => index
  | e :: es, index, existing =>
    if exKey e ∈ existing then updateLoop es index existing
    else updateLoop es (index ++ [e]) (exKey e :: existing)

/-- `update_index_for_session` as a pure store transformer: mine the
transcript, then dedup-append (`if not new_examples: return` leaves the
store unchanged, as does an append of nothing). -/
def update_index_for_session (events : List Event) (session_id : String)
    (index : List HistoricalExample) : List HistoricalExample :=
  if parseSessionMemory events session_id = [] then index
  else updateLoop (parseSessionMemory events session_id) index
    (index.map exKey)

/-! ### `decision.py` — the pure classification part of `generate_plan` -/

/-- `\s*`: maximal whitespace munch (safe: every following pattern element
starts with a non-whitespace character). -/
def dropWs (l : List Char) : List Char := l.dropWhile isPySpace

/-- Match a literal and return the remainder. -/
def matchLiteral (lit l : List Char) : Option (List Char) :=
  if lit.isPrefixOf l then some (l.drop lit.length) else none

/-- `def\s+solve\s*\(` at the head of `l`. -/
def matchDefSolve (l : List Char) : Bool :=
  match matchLiteral "def".data l with
  | none => false
  | some l1 =>
    match l1 with
    | [] => false
    | c :: _ =>
      isPySpace c &&
        (match matchLiteral "solve".data (dropWs l1) with
         | none => false
         | some l2 =>
           match dropWs l2 with
           | [] => false
           | c2 :: _ => c2 = '(')

/-- `\s*(async\s+)?def\s+solve\s*\(` at the head of `l` (whitespace may
cross line breaks, as `\s` matches `\n`). -/
def matchSolveSigAt (l : List Char) : Bool :=
  matchDefSolve (dropWs l) ||
    (match matchLiteral "async".data (dropWs l) with
     | none => false
     | some l1 =>
       match l1 with
       | [] => false
       | c :: _ => isPySpace c && matchDefSolve (dropWs l1))

/-- The suffix after the next newline, when one exists. -/
def afterNextNewline : List Char → Option (List Char)
  | [] => none
  | c :: rest => if c = '\n' then some rest else afterNextNewline rest

theorem afterNextNewline_length :
    ∀ l r, afterNextNewline l = some r → r.length < l.length := by
  intro l
  induction l with
  | nil => intro r h; cases h
  | cons c rest ih =>
    intro r h
    unfold afterNextNewline at h
    by_cases hc : c = '\n'
    · rw [if_pos hc] at h
      cases h
      exact Nat.lt_succ_self _
    · rw [if_neg hc] at h
      exact Nat.lt_succ_of_lt (ih r h)

/-- Line-start scanner for the solve signature, on fuel (structural, so
that concrete instances evaluate in the kernel); one unit of fuel is spent
per line, and `afterNextNewline` shortens the list, so any fuel above the
text length is enough (`hasSolveFromF_congr`). -/
def hasSolveFromF : Nat → List Char → Bool
  | 0, _ => false
  | fuel + 1, l =>
    matchSolveSigAt l ||
      (match afterNextNewline l with
       | some rest => hasSolveFromF fuel rest
       | none => false)

/-- `re.search(r"^\s*(async\s+)?def\s+solve\s*\(", raw, re.MULTILINE)`:
try the pattern at every line start (`^` anchors at position 0 and after
each newline). -/
def hasSolveFrom (l : List Char) : Bool :=
  hasSolveFromF (l.length + 1) l

theorem hasSolveFromF_congr :
    ∀ fuel fuel' l, l.length < fuel → l.length < fuel' →
      hasSolveFromF fuel l = hasSolveFromF fuel' l := by
  intro fuel
  induction fuel with
  | zero => intro fuel' l h _; omega
  | succ fuel ih =>
    intro fuel' l h h'
    cases fuel' with
    | zero => omega
    | succ fuel' =>
      show (matchSolveSigAt l || _) = (matchSolveSigAt l || _)
      cases hn : afterNextNewline l with
      | none => rfl
      | some rest =>
        have hlen := afterNextNewline_length l rest hn
        have := ih fuel' rest (by omega) (by omega)
        simp only [this]

/-- The solve-signature test on a string (also used by the controller at
`loop.py:245`). -/
def hasSolveSig (s : String) : Bool := hasSolveFrom s.data

/-- All characters up to the next newline (`.*` without `DOTALL`). -/
def lineOf (l : List Char) : List Char :=
  l.takeWhile (fun c => decide (c ≠ '\n'))

/-- Fuelled line-start scanner for `^\s*(PREFIX.*)$`. -/
def firstPrefixedLineF (pre : List Char) : Nat → List Char → Option (List Char)
  | 0, _ => none
  | fuel + 1, l =>
    if pre.isPrefixOf (dropWs l) then some (lineOf (dropWs l))
    else
      match afterNextNewline l with
      | some rest => firstPrefixedLineF pre fuel rest
      | none => none

/-- `re.search(r"^\s*(PREFIX.*)$", raw, re.MULTILINE)`: the first line-start
whose whitespace-skipped remainder starts with `pre`; the returned group
runs from the prefix to the end of that line. -/
def firstPrefixedLine (pre : List Char) (l : List Char) : Option (List Char) :=
  firstPrefixedLineF pre (l.length + 1) l

theorem firstPrefixedLineF_congr (pre : List Char) :
    ∀ fuel fuel' l, l.length < fuel → l.length < fuel' →
      firstPrefixedLineF pre fuel l = firstPrefixedLineF pre fuel' l := by
  intro fuel
  induction fuel with
  | zero => intro fuel' l h _; omega
  | succ fuel ih =>
    intro fuel' l h h'
    cases fuel' with
    | zero => omega
    | succ fuel' =>
      unfold firstPrefixedLineF
      by_cases hc : pre.isPrefixOf (dropWs l)
      · rw [if_pos hc, if_pos hc]
      · rw [if_neg hc, if_neg hc]
        cases hn : afterNextNewline l with
        | none => rfl
        | some rest =>
          have hlen := afterNextNewline_length l rest hn
          exact ih fuel' rest (by omega) (by omega)

/-- The backtick character. -/
def backtick : Char := Char.ofNat 96

/-- The fence-stripping preamble of `generate_plan`: when the text starts
with three backticks, `strip("`")`, `strip()`, and drop a leading
`python` tag (checked case-insensitively, six characters sliced off). -/
def stripFences (l : List Char) : List Char :=
  if startsWithL l [backtick, backtick, backtick] then
    if "python".data.isPrefixOf (pyLower (pyStrip
        (((l.dropWhile (fun c => c = backtick)).reverse.dropWhile
          (fun c => c = backtick)).reverse))) then
      pyStrip ((pyStrip (((l.dropWhile (fun c => c = backtick)).reverse.dropWhile
        (fun c => c = backtick)).reverse)).drop 6)
    else
      pyStrip (((l.dropWhile (fun c => c = backtick)).reverse.dropWhile
        (fun c => c = backtick)).reverse)
  else l

/-- The planner text after `.strip()` and fence stripping. -/
def planText (rawModelText : String) : List Char :=
  stripFences (pyStrip rawModelText.data)

/-- The pure tail of `generate_plan`: classify the (stripped, de-fenced)
LLM output.  Order as in the source: a direct `FINAL_ANSWER:` line wins
only when no solve signature is present, then a direct
`FURTHER_PROCESSING_REQUIRED:` line, then the solve plan itself, then the
fallback placeholder. -/
def generatePlanOutput (rawModelText : String) : String :=
  if (firstPrefixedLine "FINAL_ANSWER:".data (planText rawModelText)).isSome ∧
      ¬ hasSolveFrom (planText rawModelText) then
    ⟨pyStrip ((firstPrefixedLine "FINAL_ANSWER:".data
      (planText rawModelText)).getD [])⟩
  else if (firstPrefixedLine "FURTHER_PROCESSING_REQUIRED:".data
        (planText rawModelText)).isSome ∧
      ¬ hasSolveFrom (planText rawModelText) then
    ⟨pyStrip ((firstPrefixedLine "FURTHER_PROCESSING_REQUIRED:".data
      (planText rawModelText)).getD [])⟩
  else if hasSolveFrom (planText rawModelText) then
    ⟨planText rawModelText⟩
  else "FINAL_ANSWER: [Could not generate valid solve()]"

/-- The `except`-branch result of `generate_plan`. -/
def generatePlanFailure : String := "FINAL_ANSWER: [unknown]"

/-! ### `core/loop.py` — `AgentLoop.run` -/

/-- The step/lifeline configuration (`agent_profile.strategy`). -/
structure Strategy where
  max_steps : Nat
  max_lifelines_per_step : Nat
deriving Repr, DecidableEq

/-- Oracles for the external collaborators, indexed by a global counter
that advances once per inner-loop iteration. -/
structure LoopEnv where
  hasTools : Nat → Bool
  planOut : Nat → String
  sandboxOut : Nat → String
  finalize : String → String → String

/-- Observable events of one run: collaborator calls, session-memory
writes, historical-index updates, and outer-step starts. -/
inductive Ev
  | perceive
  | planCall
  | sandboxCall
  | summarizeCall
  | memToolOutput (success : Bool)
  | memFinalAnswer (text : String)
  | indexUpdate
  | stepStart (n : Nat)
deriving Repr, DecidableEq

/-- Outcome of one inner-loop iteration: `return` from `run`, `break` out
of the inner loop, or `continue` (which costs one lifeline). -/
inductive BodyOut
  | ret (result : String) (tr : List Ev)
  | brk (override : Option String) (fpr : Nat) (tr : List Ev)
  | cont (fpr : Nat) (tr : List Ev)
deriving Repr, DecidableEq

/-- The forwarding prompt composed for an in-budget
`FURTHER_PROCESSING_REQUIRED` result. -/
def overridePrompt (userInput content : String) : String :=
  "Original user task: " ++ userInput ++
    "\n\nYour last tool produced this result:\n\n" ++ content ++
    "\n\nIf this fully answers the task, return:\nFINAL_ANSWER: your answer" ++
    "\n\nOtherwise, return the next FUNCTION_CALL."

/-- `result.split("FURTHER_PROCESSING_REQUIRED:")[1].strip()` — the piece
between the first and second occurrence of the separator (callers only
reach this when the result starts with the separator). -/
def fprContent (result : String) : String :=
  match splitFirst result.data "FURTHER_PROCESSING_REQUIRED:".data with
  | some (_, post) =>
    match splitFirst post "FURTHER_PROCESSING_REQUIRED:".data with
    | some (mid, _) => ⟨pyStrip mid⟩
    | none => ⟨pyStrip post⟩
  | none => ⟨pyStrip result.data⟩

/-- One iteration of the inner `while lifelines_left >= 0` loop, from
perception to the branch decision (status/logging calls are not
observable and are omitted). -/
def runBody (env : LoopEnv) (userInput : String) (it : Nat)
    (override : Option String) (fpr : Nat) (allowed : ℤ) : BodyOut :=
  if ¬ env.hasTools it ∧ override = none then
    .brk override fpr [.perceive]
  else if pyStartsWith (env.planOut it) "FINAL_ANSWER:" ||
      pyStartsWith (env.planOut it) "FURTHER_PROCESSING_REQUIRED:" then
    .ret (env.planOut it)
      [.perceive, .planCall, .memFinalAnswer (env.planOut it), .indexUpdate]
  else if hasSolveSig (env.planOut it) then
    if pyStartsWith (pyStripS (env.sandboxOut it)) "FINAL_ANSWER:" then
      .ret (pyStripS (env.sandboxOut it))
        [.perceive, .planCall, .sandboxCall, .memToolOutput true,
          .memFinalAnswer (pyStripS (env.sandboxOut it)), .indexUpdate]
    else if pyStartsWith (pyStripS (env.sandboxOut it))
        "FURTHER_PROCESSING_REQUIRED:" then
      if ((fpr + 1 : Nat) : ℤ) ≤ allowed then
        .brk (some (overridePrompt userInput
            (fprContent (pyStripS (env.sandboxOut it)))))
          (fpr + 1) [.perceive, .planCall, .sandboxCall]
      else
        .ret ("FINAL_ANSWER: " ++ env.finalize userInput
            (fprContent (pyStripS (env.sandboxOut it))))
          [.perceive, .planCall, .sandboxCall, .summarizeCall,
            .memFinalAnswer ("FINAL_ANSWER: " ++ env.finalize userInput
              (fprContent (pyStripS (env.sandboxOut it)))), .indexUpdate]
    else if pyStartsWith (pyStripS (env.sandboxOut it)) "[sandbox error:" then
      .cont fpr [.perceive, .planCall, .sandboxCall, .memToolOutput false]
    else
      if ¬ containsSub (pyStripS (env.sandboxOut it)).data
          "FURTHER_PROCESSING_REQUIRED:".data then
        .ret ("FINAL_ANSWER: " ++ pyStripS (env.sandboxOut it))
          [.perceive, .planCall, .sandboxCall, .memToolOutput true,
            .memFinalAnswer ("FINAL_ANSWER: " ++ pyStripS (env.sandboxOut it)),
            .indexUpdate]
      else
        .cont fpr [.perceive, .planCall, .sandboxCall, .memToolOutput true]
  else
    .cont fpr [.perceive, .planCall]

/-- Outcome of a whole inner loop: a `return` from `run`, or the end of
the step (carrying the next override, the `further_processing_uses`
counter, and the advanced iteration counter). -/
inductive InnerOut
  | done (result : String) (tr : List Ev)
  | stepEnd (override : Option String) (fpr : Nat) (nextIt : Nat) (tr : List Ev)
deriving Repr, DecidableEq

/-- Prefix an iteration's trace onto an inner-loop outcome. -/
def prependTrace (tr : List Ev) : InnerOut → InnerOut
  | .done r tr2 => .done r (tr ++ tr2)
  | .stepEnd ov f n tr2 => .stepEnd ov f n (tr ++ tr2)

/-- The inner `while lifelines_left >= 0` loop.  Each `continue` iteration
decrements `lifelines_left` by one; the loop is abandoned when the
decrement would make it negative (`l = 0` at a `continue`). -/
def runInner (env : LoopEnv) (userInput : String) (allowed : ℤ) :
    Nat → Nat → Option String → Nat → InnerOut
  | l, it, override, fpr =>
    match runBody env userInput it override fpr allowed with
    | .ret r tr => .done r tr
    | .brk ov fpr2 tr => .stepEnd ov fpr2 (it + 1) tr
    | .cont fpr2 tr =>
      match l with
      | 0 => .stepEnd override fpr2 (it + 1) tr
      | l' + 1 =>
        prependTrace tr (runInner env userInput allowed l' (it + 1) override fpr2)

/-- The outer `for step in range(max_steps)` loop; on exhaustion the run
ends with the `[Max steps reached]` marker, recorded and indexed. -/
def runOuter (env : LoopEnv) (userInput : String) (allowed : ℤ)
    (maxLifelines : Nat) :
    Nat → Nat → Nat → Option String → Nat → String × List Ev
  | 0, _, _, _, _ =>
    ("FINAL_ANSWER: [Max steps reached]",
      [.memFinalAnswer "FINAL_ANSWER: [Max steps reached]", .indexUpdate])
  | n + 1, stepIdx, it, override, fpr =>
    match runInner env userInput allowed maxLifelines it override fpr with
    | .done r tr => (r, .stepStart stepIdx :: tr)
    | .stepEnd ov f nextIt tr =>
      ((runOuter env userInput allowed maxLifelines n (stepIdx + 1)
          nextIt ov f).1,
        .stepStart stepIdx :: (tr ++ (runOuter env userInput allowed
          maxLifelines n (stepIdx + 1) nextIt ov f).2))

/-- `allowed_fpr_uses = max_steps - 1` (Python subtraction on `int`). -/
def allowedFprUses (s : Strategy) : ℤ := (s.max_steps : ℤ) - 1

/-- `AgentLoop.run`: the semantic-cache fast path (which performs no
perception/planning/execution and writes no history — those two lines are
commented out in the source), then the step/lifeline loop. -/
def agentLoopRun (env : LoopEnv) (userInput : String) (s : Strategy)
    (threshold : ℚ) (index : List HistoricalExample) : String × List Ev :=
  match find_best_cached_answer userInput threshold index with
  | some hit => (pyStripS hit, [])
  | none =>
    runOuter env userInput (allowedFprUses s) s.max_lifelines_per_step
      s.max_steps 0 0 none 0

/-! ### Helper lemmas for prefix preservation -/

theorem pyStrip_isPrefixOf (pre l : List Char) (hpre : pre.isPrefixOf l)
    (hhead : pre.head?.any (fun c => !isPySpace c) = true)
    (hlast : pre.getLast?.any (fun c => !isPySpace c) = true) :
    pre.isPrefixOf (pyStrip l) = true := by
  obtain ⟨rest, hrest⟩ := List.isPrefixOf_iff_prefix.mp hpre
  subst hrest
  unfold pyStrip
  cases hp : pre with
  | nil => simp [hp] at hhead
  | cons c cs =>
    have hcw : isPySpace c = false := by
      rw [hp] at hhead
      simpa using hhead
    rw [List.cons_append, List.dropWhile_cons_of_neg (by simp [hcw])]
    rw [← List.cons_append, ← hp]
    have hrev : ∃ d tail, pre.reverse = d :: tail ∧ isPySpace d = false := by
      cases hr : pre.reverse with
      | nil =>
        exfalso
        have : pre = [] := by
          have := congrArg List.reverse hr
          simpa using this
        simp [this] at hhead
      | cons d tail =>
        refine ⟨d, tail, rfl, ?_⟩
        have hh : pre.getLast? = some d := by
          rw [← List.head?_reverse, hr, List.head?_cons]
        rw [hh] at hlast
        simpa using hlast
    obtain ⟨d, tail, hdt, hdw⟩ := hrev
    rw [List.reverse_append, List.dropWhile_append]
    by_cases he : ((rest.reverse.dropWhile isPySpace).isEmpty : Bool)
    · rw [if_pos he, hdt, List.dropWhile_cons_of_neg (by simp [hdw]), ← hdt]
      simp
    · rw [if_neg he]
      rw [List.reverse_append, List.reverse_reverse]
      exact List.isPrefixOf_iff_prefix.mpr (List.prefix_append _ _)

theorem lineOf_isPrefixOf (pre l : List Char) (hpre : pre.isPrefixOf l = true)
    (hnl : pre.all (fun c => !(c = '\n')) = true) :
    pre.isPrefixOf (lineOf l) = true := by
  obtain ⟨rest, hrest⟩ := List.isPrefixOf_iff_prefix.mp hpre
  subst hrest
  unfold lineOf
  rw [List.takeWhile_append_of_pos]
  · exact List.isPrefixOf_iff_prefix.mpr (List.prefix_append _ _)
  · intro a ha
    have := List.all_eq_true.mp hnl a ha
    simpa using this

theorem firstPrefixedLineF_isPrefixOf (pre : List Char)
    (hnl : pre.all (fun c => !(c = '\n')) = true) :
    ∀ fuel l g, firstPrefixedLineF pre fuel l = some g →
      pre.isPrefixOf g = true := by
  intro fuel
  induction fuel with
  | zero => intro l g h; cases h
  | succ fuel ih =>
    intro l g h
    unfold firstPrefixedLineF at h
    by_cases hc : pre.isPrefixOf (dropWs l)
    · rw [if_pos hc] at h
      cases h
      exact lineOf_isPrefixOf pre (dropWs l) hc hnl
    · rw [if_neg hc] at h
      cases hn : afterNextNewline l with
      | some rest => rw [hn] at h; exact ih rest g h
      | none => rw [hn] at h; cases h

/-! ### Claims about the plan classifier (C7, C10) -/

/-- The condition under which the controller's invalid-plan branch fires
(`loop.py:341-347`): the plan neither starts with a direct-answer prefix
nor contains a solve signature. -/
def planInvalid (p : String) : Bool :=
  !(pyStartsWith p "FINAL_ANSWER:" || pyStartsWith p "FURTHER_PROCESSING_REQUIRED:")
    && !hasSolveSig p

/-- C7: for every planner output text (after fence stripping), if a line
matching the solve-function signature is present anywhere, `generate_plan`
returns the full text itself as an executable-solve plan — even when the
same text also contains a `FINAL_ANSWER:` line (the direct-answer branches
are guarded by the absence of the signature). -/
theorem claim_C7_solve_takes_precedence (raw : String)
    (h : hasSolveFrom (planText raw) = true) :
    generatePlanOutput raw = ⟨planText raw⟩ := by
  unfold generatePlanOutput
  rw [if_neg (fun hc => hc.2 h), if_neg (fun hc => hc.2 h), if_pos h]

/-- Witness for C7 at a planner output holding both a `FINAL_ANSWER:` line
and a solve signature. -/
theorem claim_C7_witness :
    hasSolveFrom (planText "FINAL_ANSWER: 42\ndef solve():") = true ∧
    (firstPrefixedLine "FINAL_ANSWER:".data
      (planText "FINAL_ANSWER: 42\ndef solve():")).isSome = true ∧
    generatePlanOutput "FINAL_ANSWER: 42\ndef solve():" =
      "FINAL_ANSWER: 42\ndef solve():" :=
  ⟨by decide, by decide,
    (claim_C7_solve_takes_precedence "FINAL_ANSWER: 42\ndef solve():"
      (by decide)).trans (by decide)⟩

/-- C10: every string returned by `generate_plan` either starts with
`FINAL_ANSWER:`, starts with `FURTHER_PROCESSING_REQUIRED:`, or matches
the solve-signature search; hence the controller's lifeline-consuming
invalid-plan branch cannot fire on a plan produced by `generate_plan`
(including the exception fallback `FINAL_ANSWER: [unknown]`). -/
theorem claim_C10_generate_plan_trichotomy (raw : String) :
    (pyStartsWith (generatePlanOutput raw) "FINAL_ANSWER:" = true ∨
      pyStartsWith (generatePlanOutput raw) "FURTHER_PROCESSING_REQUIRED:" = true ∨
      hasSolveSig (generatePlanOutput raw) = true) ∧
    planInvalid (generatePlanOutput raw) = false ∧
    planInvalid generatePlanFailure = false := by
  have main : pyStartsWith (generatePlanOutput raw) "FINAL_ANSWER:" = true ∨
      pyStartsWith (generatePlanOutput raw) "FURTHER_PROCESSING_REQUIRED:" = true ∨
      hasSolveSig (generatePlanOutput raw) = true := by
    unfold generatePlanOutput
    by_cases h1 : (firstPrefixedLine "FINAL_ANSWER:".data (planText raw)).isSome ∧
        ¬ hasSolveFrom (planText raw)
    · rw [if_pos h1]
      left
      obtain ⟨g, hg⟩ := Option.isSome_iff_exists.mp h1.1
      rw [hg]
      show startsWithL (pyStrip g) "FINAL_ANSWER:".data = true
      unfold startsWithL
      exact pyStrip_isPrefixOf "FINAL_ANSWER:".data g
        (firstPrefixedLineF_isPrefixOf _ (by decide) _ _ _ hg)
        (by decide) (by decide)
    · rw [if_neg h1]
      by_cases h2 : (firstPrefixedLine "FURTHER_PROCESSING_REQUIRED:".data
          (planText raw)).isSome ∧ ¬ hasSolveFrom (planText raw)
      · rw [if_pos h2]
        right; left
        obtain ⟨g, hg⟩ := Option.isSome_iff_exists.mp h2.1
        rw [hg]
        show startsWithL (pyStrip g) "FURTHER_PROCESSING_REQUIRED:".data = true
        unfold startsWithL
        exact pyStrip_isPrefixOf "FURTHER_PROCESSING_REQUIRED:".data g
          (firstPrefixedLineF_isPrefixOf _ (by decide) _ _ _ hg)
          (by decide) (by decide)
      · rw [if_neg h2]
        by_cases h3 : hasSolveFrom (planText raw)
        · rw [if_pos h3]
          right; right
          exact h3
        · rw [if_neg h3]
          left; decide
  refine ⟨main, ?_, by decide⟩
  unfold planInvalid
  rcases main with h | h | h
  · simp [h]
  · simp [h]
  · simp [h]

/-! ### Claim C3 — the junk filter and `[Max steps reached]` -/

/-- C3 evidence: `_should_index_final_answer` accepts
`FINAL_ANSWER: [Max steps reached]` (its filter checks only
"could not generate", "unknown", "unexpected"), although the string
contains "max steps reached" case-insensitively; consequently a mined
turn whose final answer is the max-steps placeholder IS stored. -/
theorem claim_C3_max_steps_reached_stored :
    shouldIndexFinalAnswer "FINAL_ANSWER: [Max steps reached]" = true ∧
    containsSub (pyLower "FINAL_ANSWER: [Max steps reached]".data)
      "max steps reached".data = true ∧
    parseSessionMemory
      [⟨some "run_metadata",
        "Started new session with input: what is x at 2025-11-28", none,
        none, none, none, []⟩,
       ⟨some "tool_output", "", some "t1", some true,
        some "FINAL_ANSWER: [Max steps reached]", none, []⟩] "s1" =
      [⟨"s1", 0, "what is x", "FINAL_ANSWER: [Max steps reached]", ["t1"],
        ["t1"], [], ["x"]⟩] :=
  ⟨by decide, by decide, by decide⟩

/-! ### Claim C2 — the semantic-cache fast path -/

/-- C2 (amended): on a cache hit the controller sets the final answer to
the returned text stripped of surrounding whitespace and returns at once;
the trace is empty, so no perception, planning, sandboxing, memory write
or index update happens for this turn. -/
theorem claim_C2_amended (env : LoopEnv) (ui : String) (cfg : Strategy)
    (t : ℚ) (index : List HistoricalExample) (a : String)
    (h : find_best_cached_answer ui t index = some a) :
    agentLoopRun env ui cfg t index = (pyStripS a, []) := by
  unfold agentLoopRun
  rw [h]

/-- Witness for the amended C2 on a one-record store hit by an identical
query. -/
theorem claim_C2_witness :
    agentLoopRun ⟨fun _ => false, fun _ => "", fun _ => "", fun _ _ => ""⟩
      "hi" ⟨3, 3⟩ 1 [⟨"s", 0, "hi", "FINAL_ANSWER: Paris", [], [], [], []⟩] =
      ("FINAL_ANSWER: Paris", []) := by
  rw [claim_C2_amended _ _ _ _ _ "FINAL_ANSWER: Paris" (by decide)]
  decide

/-- Counterexample to C2 as stated: the final answer is the *stripped*
hit, so when the stored answer carries trailing whitespace the recorded
final answer differs from the text the lookup returned. -/
theorem claim_C2_counterexample :
    find_best_cached_answer "hi" 1
      [⟨"s", 0, "hi", "FINAL_ANSWER: Paris ", [], [], [], []⟩] =
      some "FINAL_ANSWER: Paris " ∧
    (agentLoopRun ⟨fun _ => false, fun _ => "", fun _ => "", fun _ _ => ""⟩
      "hi" ⟨3, 3⟩ 1 [⟨"s", 0, "hi", "FINAL_ANSWER: Paris ", [], [], [], []⟩]).1
      ≠ "FINAL_ANSWER: Paris " ∧
    (agentLoopRun ⟨fun _ => false, fun _ => "", fun _ => "", fun _ _ => ""⟩
      "hi" ⟨3, 3⟩ 1 [⟨"s", 0, "hi", "FINAL_ANSWER: Paris ", [], [], [], []⟩]).1
      = "FINAL_ANSWER: Paris" :=
  ⟨by decide, by decide, by decide⟩

/-! ### Claim C4 — `RawSuccess` handling -/

/-- C4 (amended): a non-empty sandbox result carrying none of the known
prefixes is recorded as a success and wrapped as the final answer, and the
run terminates in that iteration — *provided* the text does not contain
`FURTHER_PROCESSING_REQUIRED:` as an interior substring. -/
theorem claim_C4_amended (env : LoopEnv) (ui : String) (it : Nat)
    (ov : Option String) (fpr : Nat) (allowed : ℤ)
    (htools : ¬(env.hasTools it = false ∧ ov = none))
    (hp1 : pyStartsWith (env.planOut it) "FINAL_ANSWER:" = false)
    (hp2 : pyStartsWith (env.planOut it) "FURTHER_PROCESSING_REQUIRED:" = false)
    (hsolve : hasSolveSig (env.planOut it) = true)
    (hne : pyStripS (env.sandboxOut it) ≠ "")
    (hr1 : pyStartsWith (pyStripS (env.sandboxOut it)) "FINAL_ANSWER:" = false)
    (hr2 : pyStartsWith (pyStripS (env.sandboxOut it))
      "FURTHER_PROCESSING_REQUIRED:" = false)
    (hr3 : pyStartsWith (pyStripS (env.sandboxOut it)) "[sandbox error:" = false)
    (hnosub : containsSub (pyStripS (env.sandboxOut it)).data
      "FURTHER_PROCESSING_REQUIRED:".data = false) :
    runBody env ui it ov fpr allowed =
      .ret ("FINAL_ANSWER: " ++ pyStripS (env.sandboxOut it))
        [.perceive, .planCall, .sandboxCall, .memToolOutput true,
          .memFinalAnswer ("FINAL_ANSWER: " ++ pyStripS (env.sandboxOut it)),
          .indexUpdate] := by
  unfold runBody
  rw [if_neg (by
    intro hc
    exact htools ⟨by simpa using hc.1, hc.2⟩)]
  rw [if_neg (by simp [hp1, hp2])]
  rw [if_pos hsolve, if_neg (by simp [hr1]), if_neg (by simp [hr2]),
    if_neg (by simp [hr3]), if_pos (by simp [hnosub])]

/-- Witness for the amended C4: a plain sandbox result terminates the run
in that iteration. -/
theorem claim_C4_witness :
    runBody ⟨fun _ => true, fun _ => "def solve():", fun _ => "plain answer",
        fun _ _ => ""⟩ "t" 0 none 0 2 =
      BodyOut.ret "FINAL_ANSWER: plain answer"
        [.perceive, .planCall, .sandboxCall, .memToolOutput true,
          .memFinalAnswer "FINAL_ANSWER: plain answer", .indexUpdate] := by
  rw [claim_C4_amended _ _ _ _ _ _ (by decide) (by decide) (by decide)
    (by decide) (by decide) (by decide) (by decide) (by decide) (by decide)]
  decide

/-- Counterexample to C4 as stated: a `RawSuccess` whose text contains
`FURTHER_PROCESSING_REQUIRED:` away from the start is recorded as a
success but does NOT terminate the iteration — the controller burns a
lifeline and retries instead. -/
theorem claim_C4_counterexample :
    pyStripS "see FURTHER_PROCESSING_REQUIRED: more" ≠ "" ∧
    pyStartsWith (pyStripS "see FURTHER_PROCESSING_REQUIRED: more")
      "FINAL_ANSWER:" = false ∧
    pyStartsWith (pyStripS "see FURTHER_PROCESSING_REQUIRED: more")
      "FURTHER_PROCESSING_REQUIRED:" = false ∧
    pyStartsWith (pyStripS "see FURTHER_PROCESSING_REQUIRED: more")
      "[sandbox error:" = false ∧
    runBody ⟨fun _ => true, fun _ => "def solve():",
        fun _ => "see FURTHER_PROCESSING_REQUIRED: more", fun _ _ => ""⟩
      "t" 0 none 0 2 =
      BodyOut.cont 0 [.perceive, .planCall, .sandboxCall, .memToolOutput true] :=
  ⟨by decide, by decide, by decide, by decide, by decide⟩

/-! ### Claim C5 — lifeline accounting -/

theorem runBody_cont_fpr (env : LoopEnv) (ui : String) (it : Nat)
    (ov : Option String) (fpr : Nat) (allowed : ℤ) :
    ∀ fpr2 tr, runBody env ui it ov fpr allowed = .cont fpr2 tr →
      fpr2 = fpr := by
  unfold runBody
  split_ifs <;> intro fpr2 tr h <;> cases h <;> rfl

theorem runInner_cont_step (env : LoopEnv) (ui : String) (allowed : ℤ)
    (l it : Nat) (ov : Option String) (fpr fpr2 : Nat) (tr : List Ev)
    (h : runBody env ui it ov fpr allowed = .cont fpr2 tr) :
    runInner env ui allowed (l + 1) it ov fpr =
      prependTrace tr (runInner env ui allowed l (it + 1) ov fpr2) := by
  rw [runInner, h]

theorem runInner_cont_exhaust (env : LoopEnv) (ui : String) (allowed : ℤ)
    (it : Nat) (ov : Option String) (fpr fpr2 : Nat) (tr : List Ev)
    (h : runBody env ui it ov fpr allowed = .cont fpr2 tr) :
    runInner env ui allowed 0 it ov fpr = .stepEnd ov fpr2 (it + 1) tr := by
  rw [runInner, h]

/-- C5 (amended): an inner-loop iteration consumes exactly one lifeline
precisely when the body `continue`s, which happens exactly on an invalid
plan, on a `[sandbox error:` result, or on a prefix-free (`RawSuccess`)
result that contains `FURTHER_PROCESSING_REQUIRED:` as a substring;
`further_processing_uses` is unchanged on such iterations; with `l + 1`
lifelines the loop retries with `l`, and with `0` it exits the step (the
decrement would go negative). -/
theorem claim_C5_amended (env : LoopEnv) (ui : String) (allowed : ℤ)
    (it : Nat) (ov : Option String) (fpr : Nat) :
    ((∃ fpr2 tr, runBody env ui it ov fpr allowed = .cont fpr2 tr) ↔
      (¬(env.hasTools it = false ∧ ov = none) ∧
        pyStartsWith (env.planOut it) "FINAL_ANSWER:" = false ∧
        pyStartsWith (env.planOut it) "FURTHER_PROCESSING_REQUIRED:" = false ∧
        (hasSolveSig (env.planOut it) = false ∨
          (hasSolveSig (env.planOut it) = true ∧
            pyStartsWith (pyStripS (env.sandboxOut it)) "FINAL_ANSWER:" = false ∧
            pyStartsWith (pyStripS (env.sandboxOut it))
              "FURTHER_PROCESSING_REQUIRED:" = false ∧
            (pyStartsWith (pyStripS (env.sandboxOut it)) "[sandbox error:" = true ∨
              containsSub (pyStripS (env.sandboxOut it)).data
                "FURTHER_PROCESSING_REQUIRED:".data = true))))) ∧
    (∀ fpr2 tr, runBody env ui it ov fpr allowed = .cont fpr2 tr →
      fpr2 = fpr ∧
      (∀ l, runInner env ui allowed (l + 1) it ov fpr =
        prependTrace tr (runInner env ui allowed l (it + 1) ov fpr2)) ∧
      runInner env ui allowed 0 it ov fpr = .stepEnd ov fpr2 (it + 1) tr) := by
  constructor
  · unfold runBody
    split_ifs with h1 h2 h3 h4 h5 h6 h7 <;>
      simp_all [Bool.or_eq_true, not_or] <;>
      intro hfa hfpr <;>
      simp_all
  · intro fpr2 tr h
    exact ⟨runBody_cont_fpr env ui it ov fpr allowed fpr2 tr h,
      fun l => runInner_cont_step env ui allowed l it ov fpr fpr2 tr h,
      runInner_cont_exhaust env ui allowed it ov fpr fpr2 tr h⟩

/-- Witness for the amended C5: an invalid plan consumes the last
lifeline and the inner loop exits. -/
theorem claim_C5_witness :
    (∃ fpr2 tr,
      runBody ⟨fun _ => true, fun _ => "gibberish", fun _ => "", fun _ _ => ""⟩
        "u" 0 none 0 2 = BodyOut.cont fpr2 tr) ∧
    runInner ⟨fun _ => true, fun _ => "gibberish", fun _ => "", fun _ _ => ""⟩
      "u" 2 0 0 none 0 = .stepEnd none 0 1 [.perceive, .planCall] := by
  have h := (claim_C5_amended
    ⟨fun _ => true, fun _ => "gibberish", fun _ => "", fun _ _ => ""⟩
    "u" 2 0 none 0).2 0 [.perceive, .planCall] (by decide)
  exact ⟨⟨0, [.perceive, .planCall], by decide⟩, h.2.2⟩

/-- Counterexample to C5 as stated: a lifeline is lost on an iteration
whose plan holds a valid solve signature and whose sandbox result is a
success, not a `[sandbox error:` — it merely contains
`FURTHER_PROCESSING_REQUIRED:` in the middle. -/
theorem claim_C5_counterexample :
    hasSolveSig "def solve():" = true ∧
    pyStartsWith (pyStripS "meta FURTHER_PROCESSING_REQUIRED: tail")
      "[sandbox error:" = false ∧
    runBody ⟨fun _ => true, fun _ => "def solve():",
        fun _ => "meta FURTHER_PROCESSING_REQUIRED: tail", fun _ _ => ""⟩
      "u" 0 none 0 2 =
      BodyOut.cont 0 [.perceive, .planCall, .sandboxCall, .memToolOutput true] :=
  ⟨by decide, by decide, by decide⟩

/-! ### Claim C1 — the further-processing budget and the step bound -/

/-- Number of outer-loop steps recorded in a trace. -/
def countSteps (tr : List Ev) : Nat :=
  tr.countP (fun e => match e with | .stepStart _ => true | _ => false)

theorem runBody_no_stepStart (env : LoopEnv) (ui : String) (it : Nat)
    (ov : Option String) (fpr : Nat) (allowed : ℤ) :
    (match runBody env ui it ov fpr allowed with
     | .ret _ tr => countSteps tr
     | .brk _ _ tr => countSteps tr
     | .cont _ tr => countSteps tr) = 0 := by
  unfold runBody
  split_ifs <;> rfl

theorem runInner_no_stepStart (env : LoopEnv) (ui : String) (allowed : ℤ) :
    ∀ l it ov fpr,
      (match runInner env ui allowed l it ov fpr with
       | .done _ tr => countSteps tr
       | .stepEnd _ _ _ tr => countSteps tr) = 0 := by
  intro l
  induction l with
  | zero =>
    intro it ov fpr
    have hb := runBody_no_stepStart env ui it ov fpr allowed
    rw [runInner]
    cases h : runBody env ui it ov fpr allowed <;> rw [h] at hb <;> exact hb
  | succ l ih =>
    intro it ov fpr
    have hb := runBody_no_stepStart env ui it ov fpr allowed
    rw [runInner]
    cases h : runBody env ui it ov fpr allowed with
    | ret r tr => rw [h] at hb; exact hb
    | brk ov2 fpr2 tr => rw [h] at hb; exact hb
    | cont fpr2 tr =>
      rw [h] at hb
      have hb' : countSteps tr = 0 := hb
      have hi := ih (it + 1) ov fpr2
      show (match prependTrace tr (runInner env ui allowed l (it + 1) ov fpr2) with
        | InnerOut.done _ t => countSteps t
        | InnerOut.stepEnd _ _ _ t => countSteps t) = 0
      cases h2 : runInner env ui allowed l (it + 1) ov fpr2 with
      | done r tr2 =>
        rw [h2] at hi
        have hi' : countSteps tr2 = 0 := hi
        show countSteps (tr ++ tr2) = 0
        unfold countSteps at hb' hi' ⊢
        rw [List.countP_append]
        omega
      | stepEnd o f n tr2 =>
        rw [h2] at hi
        have hi' : countSteps tr2 = 0 := hi
        show countSteps (tr ++ tr2) = 0
        unfold countSteps at hb' hi' ⊢
        rw [List.countP_append]
        omega

theorem runOuter_steps_le (env : LoopEnv) (ui : String) (allowed : ℤ)
    (maxLifelines : Nat) :
    ∀ n stepIdx it ov fpr,
      countSteps (runOuter env ui allowed maxLifelines n stepIdx it ov fpr).2
        ≤ n := by
  intro n
  induction n with
  | zero => intro stepIdx it ov fpr; exact Nat.le_refl _
  | succ n ih =>
    intro stepIdx it ov fpr
    have hi := runInner_no_stepStart env ui allowed maxLifelines it ov fpr
    rw [runOuter]
    cases h : runInner env ui allowed maxLifelines it ov fpr with
    | done r tr =>
      rw [h] at hi
      have hi' : countSteps tr = 0 := hi
      show countSteps (Ev.stepStart stepIdx :: tr) ≤ n + 1
      unfold countSteps at hi' ⊢
      rw [List.countP_cons]
      simp only [hi', if_true]
      omega
    | stepEnd ov2 fpr2 nextIt tr =>
      rw [h] at hi
      have hi' : countSteps tr = 0 := hi
      have ho := ih (stepIdx + 1) nextIt ov2 fpr2
      show countSteps (Ev.stepStart stepIdx :: (tr ++ (runOuter env ui allowed
        maxLifelines n (stepIdx + 1) nextIt ov2 fpr2).2)) ≤ n + 1
      unfold countSteps at hi' ho ⊢
      rw [List.countP_cons, List.countP_append]
      simp only [hi', if_true]
      omega

/-- C1: `allowed_fpr_uses` equals `max_steps - 1`; when a
`FURTHER_PROCESSING_REQUIRED` sandbox result pushes
`further_processing_uses` strictly above that budget, the controller
calls the finalization summarizer on the extracted content, records the
synthesized `FINAL_ANSWER:` and terminates at once; and a whole run never
starts more than `max_steps` outer steps. -/
theorem claim_C1_fpr_budget (cfg : Strategy) (env : LoopEnv) (ui : String)
    (it : Nat) (ov : Option String) (fpr : Nat)
    (htools : ¬(env.hasTools it = false ∧ ov = none))
    (hp1 : pyStartsWith (env.planOut it) "FINAL_ANSWER:" = false)
    (hp2 : pyStartsWith (env.planOut it) "FURTHER_PROCESSING_REQUIRED:" = false)
    (hsolve : hasSolveSig (env.planOut it) = true)
    (hr1 : pyStartsWith (pyStripS (env.sandboxOut it)) "FINAL_ANSWER:" = false)
    (hr2 : pyStartsWith (pyStripS (env.sandboxOut it))
      "FURTHER_PROCESSING_REQUIRED:" = true)
    (hover : allowedFprUses cfg < ((fpr + 1 : Nat) : ℤ)) :
    allowedFprUses cfg = (cfg.max_steps : ℤ) - 1 ∧
    runBody env ui it ov fpr (allowedFprUses cfg) =
      .ret ("FINAL_ANSWER: " ++ env.finalize ui
          (fprContent (pyStripS (env.sandboxOut it))))
        [.perceive, .planCall, .sandboxCall, .summarizeCall,
          .memFinalAnswer ("FINAL_ANSWER: " ++ env.finalize ui
            (fprContent (pyStripS (env.sandboxOut it)))), .indexUpdate] ∧
    (∀ env' ui' t idx,
      countSteps (agentLoopRun env' ui' cfg t idx).2 ≤ cfg.max_steps) := by
  refine ⟨rfl, ?_, ?_⟩
  · unfold runBody
    rw [if_neg (by
      intro hc
      exact htools ⟨by simpa using hc.1, hc.2⟩)]
    rw [if_neg (by simp [hp1, hp2])]
    rw [if_pos hsolve, if_neg (by simp [hr1]), if_pos hr2,
      if_neg (by omega)]
  · intro env' ui' t idx
    unfold agentLoopRun
    cases find_best_cached_answer ui' t idx with
    | some hit => exact Nat.zero_le _
    | none =>
      exact runOuter_steps_le env' ui' (allowedFprUses cfg)
        cfg.max_lifelines_per_step cfg.max_steps 0 0 none 0

/-- Witness for C1 with `max_steps = 1` (budget `0`): the first
`FURTHER_PROCESSING_REQUIRED` already exceeds the budget and forces the
summarized final answer. -/
theorem claim_C1_witness :
    allowedFprUses ⟨1, 0⟩ = 0 ∧
    runBody ⟨fun _ => true, fun _ => "def solve():",
        fun _ => "FURTHER_PROCESSING_REQUIRED: data", fun _ _ => "S"⟩
      "task" 0 none 0 (allowedFprUses ⟨1, 0⟩) =
      BodyOut.ret "FINAL_ANSWER: S"
        [.perceive, .planCall, .sandboxCall, .summarizeCall,
          .memFinalAnswer "FINAL_ANSWER: S", .indexUpdate] ∧
    countSteps (agentLoopRun ⟨fun _ => true, fun _ => "def solve():",
        fun _ => "FURTHER_PROCESSING_REQUIRED: data", fun _ _ => "S"⟩
      "task" ⟨1, 0⟩ 1 []).2 ≤ 1 := by
  have h := claim_C1_fpr_budget ⟨1, 0⟩
    ⟨fun _ => true, fun _ => "def solve():",
      fun _ => "FURTHER_PROCESSING_REQUIRED: data", fun _ _ => "S"⟩
    "task" 0 none 0 (by decide) (by decide) (by decide) (by decide)
    (by decide) (by decide) (by decide)
  refine ⟨by decide, ?_, h.2.2 _ "task" 1 []⟩
  have h2 := h.2.1
  rw [h2]
  decide

/-! ### Claim C9 — idempotent update, unique keys -/

theorem updateLoop_keys_mono :
    ∀ (es acc : List HistoricalExample) (ex : List (String × Nat)) k,
      k ∈ acc.map exKey → k ∈ (updateLoop es acc ex).map exKey := by
  intro es
  induction es with
  | nil => intro acc ex k h; exact h
  | cons e es ih =>
    intro acc ex k h
    unfold updateLoop
    by_cases hc : exKey e ∈ ex
    · rw [if_pos hc]; exact ih acc ex k h
    · rw [if_neg hc]
      refine ih _ _ k ?_
      rw [List.map_append]
      exact List.mem_append_left _ h

theorem updateLoop_skip_all :
    ∀ (es acc : List HistoricalExample) (ex : List (String × Nat)),
      (∀ e ∈ es, exKey e ∈ ex) → updateLoop es acc ex = acc := by
  intro es
  induction es with
  | nil => intro acc ex _; rfl
  | cons e es ih =>
    intro acc ex h
    unfold updateLoop
    rw [if_pos (h e (List.mem_cons_self e es))]
    exact ih acc ex fun x hx => h x (List.mem_cons_of_mem _ hx)

theorem updateLoop_keys_complete :
    ∀ (es acc : List HistoricalExample) (ex : List (String × Nat)),
      (∀ k, k ∈ ex → k ∈ acc.map exKey) →
      ∀ e ∈ es, exKey e ∈ (updateLoop es acc ex).map exKey := by
  intro es
  induction es with
  | nil => intro acc ex _ e he; cases he
  | cons e es ih =>
    intro acc ex hex e2 he2
    unfold updateLoop
    by_cases hc : exKey e ∈ ex
    · rw [if_pos hc]
      rcases List.mem_cons.mp he2 with h | h
      · subst h
        exact updateLoop_keys_mono es acc ex (exKey e2) (hex _ hc)
      · exact ih acc ex hex e2 h
    · rw [if_neg hc]
      have hex2 : ∀ k, k ∈ exKey e :: ex → k ∈ (acc ++ [e]).map exKey := by
        intro k hk
        rw [List.map_append]
        rcases List.mem_cons.mp hk with h | h
        · subst h
          exact List.mem_append_right _ (by simp)
        · exact List.mem_append_left _ (hex _ h)
      rcases List.mem_cons.mp he2 with h | h
      · rw [h]
        exact updateLoop_keys_mono es (acc ++ [e]) _ (exKey e)
          (hex2 _ (List.mem_cons_self _ _))
      · exact ih (acc ++ [e]) _ hex2 e2 h

theorem updateLoop_keys_nodup :
    ∀ (es acc : List HistoricalExample) (ex : List (String × Nat)),
      (∀ k, k ∈ acc.map exKey → k ∈ ex) →
      (acc.map exKey).Nodup →
      ((updateLoop es acc ex).map exKey).Nodup := by
  intro es
  induction es with
  | nil => intro acc ex _ h; exact h
  | cons e es ih =>
    intro acc ex hsub hnd
    unfold updateLoop
    by_cases hc : exKey e ∈ ex
    · rw [if_pos hc]; exact ih acc ex hsub hnd
    · rw [if_neg hc]
      refine ih (acc ++ [e]) _ ?_ ?_
      · intro k hk
        rw [List.map_append] at hk
        rcases List.mem_append.mp hk with h | h
        · exact List.mem_cons_of_mem _ (hsub _ h)
        · simp at h
          rw [h]
          exact List.mem_cons_self _ _
      · rw [List.map_append]
        rw [List.nodup_append]
        refine ⟨hnd, List.nodup_singleton _, ?_⟩
        intro a ha
        simp only [List.map_cons, List.map_nil, List.mem_singleton]
        intro hb
        rw [hb] at ha
        exact hc (hsub _ ha)

/-- Store states reachable by repeated `update_index_for_session` calls
from the empty store (a missing or unparsable index file loads as `[]`). -/
inductive ReachableStore : List HistoricalExample → Prop
  | nil : ReachableStore []
  | update (events : List Event) (session_id : String)
      (s : List HistoricalExample) : ReachableStore s →
      ReachableStore (update_index_for_session events session_id s)

/-- C9: updating twice with the same transcript and session id appends
nothing the second time (the store is unchanged), and every store
reachable by updates from the empty store has pairwise-distinct
`(session_id, turn_index)` keys. -/
theorem claim_C9_idempotent_unique_keys (events : List Event)
    (session_id : String) (index : List HistoricalExample) :
    update_index_for_session events session_id
        (update_index_for_session events session_id index) =
      update_index_for_session events session_id index ∧
    (∀ s, ReachableStore s → (s.map exKey).Nodup) := by
  constructor
  · unfold update_index_for_session
    by_cases hp : parseSessionMemory events session_id = []
    · rw [if_pos hp, if_pos hp]
    · rw [if_neg hp, if_neg hp]
      apply updateLoop_skip_all
      intro e he
      exact updateLoop_keys_complete (parseSessionMemory events session_id)
        index (index.map exKey) (fun k hk => hk) e he
  · intro s hs
    induction hs with
    | nil => exact List.nodup_nil
    | update evts sid s2 _ ih =>
      unfold update_index_for_session
      by_cases hp : parseSessionMemory evts sid = []
      · rw [if_pos hp]; exact ih
      · rw [if_neg hp]
        exact updateLoop_keys_nodup _ s2 _ (fun k hk => hk) ih

/-- Witness for C9 on a concrete transcript and the empty store. -/
theorem claim_C9_witness :
    update_index_for_session
        [⟨some "run_metadata",
          "Started new session with input: what is y at 2025-12-01", none,
          none, none, none, []⟩,
         ⟨some "tool_output", "", some "t2", some true,
          some "FINAL_ANSWER: 7", none, []⟩] "s2"
        (update_index_for_session
          [⟨some "run_metadata",
            "Started new session with input: what is y at 2025-12-01", none,
            none, none, none, []⟩,
           ⟨some "tool_output", "", some "t2", some true,
            some "FINAL_ANSWER: 7", none, []⟩] "s2" []) =
      update_index_for_session
        [⟨some "run_metadata",
          "Started new session with input: what is y at 2025-12-01", none,
          none, none, none, []⟩,
         ⟨some "tool_output", "", some "t2", some true,
          some "FINAL_ANSWER: 7", none, []⟩] "s2" [] ∧
    ((update_index_for_session
        [⟨some "run_metadata",
          "Started new session with input: what is y at 2025-12-01", none,
          none, none, none, []⟩,
         ⟨some "tool_output", "", some "t2", some true,
          some "FINAL_ANSWER: 7", none, []⟩] "s2" []).map exKey).Nodup :=
  ⟨(claim_C9_idempotent_unique_keys _ "s2" []).1,
    (claim_C9_idempotent_unique_keys
      [⟨some "run_metadata",
        "Started new session with input: what is y at 2025-12-01", none,
        none, none, none, []⟩,
       ⟨some "tool_output", "", some "t2", some true,
        some "FINAL_ANSWER: 7", none, []⟩] "s2" []).2 _
      (ReachableStore.update _ _ _ ReachableStore.nil)⟩

/-! ### Claim C8 — `load_similar_examples` -/

theorem enumFrom_fst_lt (l : List HistoricalExample) :
    ∀ n, (l.enumFrom n).Pairwise (fun a b => a.1 < b.1) := by
  induction l with
  | nil => intro n; exact List.Pairwise.nil
  | cons x xs ih =>
    intro n
    rw [List.enumFrom_cons]
    refine List.Pairwise.cons ?_ (ih (n + 1))
    intro y hy
    obtain ⟨i, a⟩ := y
    have h := (List.mk_mem_enumFrom_iff_le_and_getElem?_sub.mp hy).1
    show n < i
    omega

theorem mem_insertDescBySim (x w : ℚ × Nat × HistoricalExample) :
    ∀ l, w ∈ insertDescBySim x l ↔ w = x ∨ w ∈ l := by
  intro l
  induction l with
  | nil => simp [insertDescBySim]
  | cons y ys ih =>
    unfold insertDescBySim
    by_cases hc : y.1 ≤ x.1
    · rw [if_pos hc]
      simp [List.mem_cons]
    · rw [if_neg hc]
      simp only [List.mem_cons, ih]
      tauto

theorem mem_sortDescBySim (w : ℚ × Nat × HistoricalExample) :
    ∀ l, w ∈ sortDescBySim l ↔ w ∈ l := by
  intro l
  induction l with
  | nil => simp [sortDescBySim]
  | cons x xs ih =>
    unfold sortDescBySim
    rw [mem_insertDescBySim]
    simp only [List.mem_cons, ih]

theorem insertDescBySim_pairwise (x : ℚ × Nat × HistoricalExample) :
    ∀ l, l.Pairwise (fun a b => b.1 < a.1 ∨ (a.1 = b.1 ∧ a.2.1 < b.2.1)) →
      (∀ y ∈ l, x.2.1 < y.2.1) →
      (insertDescBySim x l).Pairwise
        (fun a b => b.1 < a.1 ∨ (a.1 = b.1 ∧ a.2.1 < b.2.1)) := by
  intro l
  induction l with
  | nil => intro _ _; exact List.pairwise_singleton _ _
  | cons y ys ih =>
    intro hp hidx
    unfold insertDescBySim
    by_cases hc : y.1 ≤ x.1
    · rw [if_pos hc]
      refine List.Pairwise.cons ?_ hp
      intro z hz
      rcases List.mem_cons.mp hz with h | h
      · subst h
        rcases lt_or_eq_of_le hc with h1 | h1
        · exact Or.inl h1
        · exact Or.inr ⟨h1.symm, hidx z (List.mem_cons_self _ _)⟩
      · have hyz := (List.pairwise_cons.mp hp).1 z h
        rcases hyz with h1 | h1
        · exact Or.inl (lt_of_lt_of_le h1 hc)
        · rcases lt_or_eq_of_le hc with h2 | h2
          · left
            rw [← h1.1]
            exact h2
          · exact Or.inr ⟨by rw [← h2, h1.1],
              hidx z (List.mem_cons_of_mem _ h)⟩
    · rw [if_neg hc]
      have htail := List.pairwise_cons.mp hp
      refine List.Pairwise.cons ?_
        (ih htail.2 (fun z hz => hidx z (List.mem_cons_of_mem _ hz)))
      intro z hz
      rcases (mem_insertDescBySim x z ys).mp hz with h | h
      · rw [h]
        exact Or.inl (lt_of_not_le hc)
      · exact htail.1 z h

theorem sortDescBySim_pairwise :
    ∀ l : List (ℚ × Nat × HistoricalExample),
      l.Pairwise (fun a b => a.2.1 < b.2.1) →
      (sortDescBySim l).Pairwise
        (fun a b => b.1 < a.1 ∨ (a.1 = b.1 ∧ a.2.1 < b.2.1)) := by
  intro l
  induction l with
  | nil => intro _; exact List.Pairwise.nil
  | cons x xs ih =>
    intro hp
    have hcons := List.pairwise_cons.mp hp
    unfold sortDescBySim
    refine insertDescBySim_pairwise x _ (ih hcons.2) ?_
    intro y hy
    exact hcons.1 y ((mem_sortDescBySim y xs).mp hy)

theorem mem_scoredExamples (q : String) :
    ∀ (l : List (Nat × HistoricalExample)) x, x ∈ scoredExamples q l →
      x.2 ∈ l ∧
      x.1 = jaccardSimilarity (normalizeText q) (kwOf x.2.2) ∧
      pyStartsWith x.2.2.final_answer "FINAL_ANSWER:" = true ∧
      pyStripS x.2.2.final_answer ≠ COULD_NOT_GENERATE ∧
      0 < jaccardSimilarity (normalizeText q) (kwOf x.2.2) := by
  intro l
  induction l with
  | nil => intro x hx; cases hx
  | cons p rest ih =>
    obtain ⟨i, r⟩ := p
    intro x hx
    unfold scoredExamples at hx
    by_cases hc : pyStartsWith r.final_answer "FINAL_ANSWER:" = true ∧
        pyStripS r.final_answer ≠ COULD_NOT_GENERATE ∧
        0 < jaccardSimilarity (normalizeText q) (kwOf r)
    · rw [if_pos hc] at hx
      rcases List.mem_cons.mp hx with h | h
      · subst h
        exact ⟨List.mem_cons_self _ _, rfl, hc.1, hc.2.1, hc.2.2⟩
      · have := ih x h
        exact ⟨List.mem_cons_of_mem _ this.1, this.2⟩
    · rw [if_neg hc] at hx
      have := ih x hx
      exact ⟨List.mem_cons_of_mem _ this.1, this.2⟩

theorem scoredExamples_pairwise_idx (q : String) :
    ∀ l : List (Nat × HistoricalExample),
      l.Pairwise (fun a b => a.1 < b.1) →
      (scoredExamples q l).Pairwise (fun a b => a.2.1 < b.2.1) := by
  intro l
  induction l with
  | nil => intro _; exact List.Pairwise.nil
  | cons p rest ih =>
    obtain ⟨i, r⟩ := p
    intro hp
    have hcons := List.pairwise_cons.mp hp
    unfold scoredExamples
    by_cases hc : pyStartsWith r.final_answer "FINAL_ANSWER:" = true ∧
        pyStripS r.final_answer ≠ COULD_NOT_GENERATE ∧
        0 < jaccardSimilarity (normalizeText q) (kwOf r)
    · rw [if_pos hc]
      refine List.Pairwise.cons ?_ (ih hcons.2)
      intro y hy
      have hmem := (mem_scoredExamples q rest y hy).1
      exact hcons.1 y.2 hmem
    · rw [if_neg hc]
      exact ih hcons.2

/-- C8: `load_similar_examples` returns at most `top_k` records; every
returned record carries the `FINAL_ANSWER:` prefix, is not the
`[Could not generate valid solve()]` placeholder, and has strictly
positive Jaccard similarity to the query; the result is the
position-erasure of the first `top_k` entries of a list sorted by
strictly descending similarity with ties in original store order, whose
entries carry the computed similarity of records of the store. -/
theorem claim_C8_load_similar (q : String) (k : Nat)
    (index : List HistoricalExample) :
    (load_similar_examples q k index).length ≤ k ∧
    (∀ r ∈ load_similar_examples q k index,
      r.final_answer ≠ COULD_NOT_GENERATE ∧
      pyStripS r.final_answer ≠ COULD_NOT_GENERATE ∧
      pyStartsWith r.final_answer "FINAL_ANSWER:" = true ∧
      0 < jaccardSimilarity (normalizeText q) (kwOf r)) ∧
    load_similar_examples q k index =
      ((sortDescBySim (scoredExamples q index.enum)).take k).map
        (fun t => t.2.2) ∧
    (sortDescBySim (scoredExamples q index.enum)).Pairwise
      (fun a b => b.1 < a.1 ∨ (a.1 = b.1 ∧ a.2.1 < b.2.1)) ∧
    (∀ x ∈ sortDescBySim (scoredExamples q index.enum),
      x.1 = jaccardSimilarity (normalizeText q) (kwOf x.2.2) ∧
        x.2 ∈ index.enum) := by
  refine ⟨?_, ?_, rfl, ?_, ?_⟩
  · unfold load_similar_examples
    rw [List.length_map]
    exact List.length_take_le _ _
  · intro r hr
    unfold load_similar_examples at hr
    obtain ⟨x, hx, hxr⟩ := List.mem_map.mp hr
    have hx2 := List.mem_of_mem_take hx
    have hprops := mem_scoredExamples q index.enum x
      ((mem_sortDescBySim x _).mp hx2)
    rw [← hxr]
    refine ⟨?_, hprops.2.2.2.1, hprops.2.2.1, hprops.2.2.2.2⟩
    intro heq
    apply hprops.2.2.2.1
    rw [heq]
    decide
  · exact sortDescBySim_pairwise _
      (scoredExamples_pairwise_idx q _ (enumFrom_fst_lt index 0))
  · intro x hx
    have hprops := mem_scoredExamples q index.enum x
      ((mem_sortDescBySim x _).mp hx)
    exact ⟨hprops.2.1, hprops.1⟩

/-! ### Claim C6 — `find_best_cached_answer` -/

theorem findBestLoop_sim_lt (q : String) (t : ℚ) :
    ∀ (rs : List HistoricalExample) (best : Option String) (bs : ℚ),
      (∀ r ∈ rs, stringSimilarityS q r.user_query < t) → bs < t →
      (findBestLoop q rs best bs).2 < t := by
  intro rs
  induction rs with
  | nil => intro best bs _ h; exact h
  | cons r rs ih =>
    intro best bs hall hbs
    unfold findBestLoop
    by_cases h1 : pyStartsWith r.final_answer "FINAL_ANSWER:" = true
    · rw [if_pos h1]
      by_cases h2 : bs < stringSimilarityS q r.user_query
      · rw [if_pos h2]
        exact ih _ _ (fun x hx => hall x (List.mem_cons_of_mem _ hx))
          (hall r (List.mem_cons_self _ _))
      · rw [if_neg h2]
        exact ih _ _ (fun x hx => hall x (List.mem_cons_of_mem _ hx)) hbs
    · rw [if_neg h1]
      exact ih _ _ (fun x hx => hall x (List.mem_cons_of_mem _ hx)) hbs

theorem findBestLoop_locked (q fa : String) :
    ∀ rs, findBestLoop q rs (some fa) 1 = (some fa, 1) := by
  intro rs
  induction rs with
  | nil => rfl
  | cons r rs ih =>
    unfold findBestLoop
    by_cases h1 : pyStartsWith r.final_answer "FINAL_ANSWER:" = true
    · rw [if_pos h1,
        if_neg (show ¬(1 < stringSimilarityS q r.user_query) from
          not_lt.mpr (stringSimilarity_le_one q.data r.user_query.data))]
      exact ih
    · rw [if_neg h1]
      exact ih

theorem findBestLoop_hits (q : String) (r : HistoricalExample)
    (post : List HistoricalExample) (hq : r.user_query = q)
    (hfa : pyStartsWith r.final_answer "FINAL_ANSWER:" = true) :
    ∀ (pre : List HistoricalExample) (best : Option String) (bs : ℚ),
      bs < 1 →
      (∀ r' ∈ pre, pyStartsWith r'.final_answer "FINAL_ANSWER:" = true →
        stringSimilarityS q r'.user_query < 1) →
      findBestLoop q (pre ++ r :: post) best bs = (some r.final_answer, 1) := by
  intro pre
  induction pre with
  | nil =>
    intro best bs hbs _
    rw [List.nil_append]
    unfold findBestLoop
    rw [if_pos hfa]
    have hsim : stringSimilarityS q r.user_query = 1 := by
      rw [hq]
      exact stringSimilarity_self _ _ rfl
    rw [hsim, if_pos hbs]
    exact findBestLoop_locked q r.final_answer post
  | cons r' pre ih =>
    intro best bs hbs hall
    rw [List.cons_append]
    unfold findBestLoop
    by_cases h1 : pyStartsWith r'.final_answer "FINAL_ANSWER:" = true
    · rw [if_pos h1]
      by_cases h2 : bs < stringSimilarityS q r'.user_query
      · rw [if_pos h2]
        exact ih _ _ (hall r' (List.mem_cons_self _ _) h1)
          (fun x hx hp => hall x (List.mem_cons_of_mem _ hx) hp)
      · rw [if_neg h2]
        exact ih _ _ hbs (fun x hx hp => hall x (List.mem_cons_of_mem _ hx) hp)
    · rw [if_neg h1]
      exact ih _ _ hbs (fun x hx hp => hall x (List.mem_cons_of_mem _ hx) hp)

theorem startsWith_FA_ne_empty (s : String)
    (h : pyStartsWith s "FINAL_ANSWER:" = true) : s ≠ "" := by
  intro he
  rw [he] at h
  exact absurd h (by decide)

/-- C6 (amended): `find_best_cached_answer` returns `none` on an empty
store and when no stored record's similarity reaches `min_similarity`;
and when the query is character-for-character identical to a stored
record's `user_query` whose `final_answer` carries the `FINAL_ANSWER:`
prefix, it returns that record's `final_answer` verbatim for any positive
threshold at most `1`, provided every earlier prefix-carrying record has
similarity strictly below `1` (the scan keeps the first best record, and
similarity is computed on case-collapsed, whitespace-collapsed text, so
an earlier tying record would be returned instead). -/
theorem claim_C6_amended (q : String) (t : ℚ)
    (index : List HistoricalExample) :
    (index = [] → find_best_cached_answer q t index = none) ∧
    ((∀ r ∈ index, stringSimilarityS q r.user_query < t) →
      find_best_cached_answer q t index = none) ∧
    (∀ (i : Nat) (r : HistoricalExample), index.get? i = some r →
      r.user_query = q →
      pyStartsWith r.final_answer "FINAL_ANSWER:" = true →
      0 < t → t ≤ 1 →
      (∀ (j : Nat) (r' : HistoricalExample), j < i →
        index.get? j = some r' →
        pyStartsWith r'.final_answer "FINAL_ANSWER:" = true →
        stringSimilarityS q r'.user_query < 1) →
      find_best_cached_answer q t index = some r.final_answer) := by
  refine ⟨?_, ?_, ?_⟩
  · intro h
    rw [h]
    rfl
  · intro hall
    unfold find_best_cached_answer
    by_cases he : index = []
    · rw [if_pos he]
    · rw [if_neg he]
      obtain ⟨r0, rs0, hr0⟩ := List.exists_cons_of_ne_nil he
      have ht : (0 : ℚ) < t := by
        have h1 := hall r0 (by rw [hr0]; exact List.mem_cons_self _ _)
        have h2 := stringSimilarity_nonneg q.data r0.user_query.data
        calc (0 : ℚ) ≤ stringSimilarityS q r0.user_query := h2
          _ < t := h1
      have hlt := findBestLoop_sim_lt q t index none 0 hall ht
      cases hb : findBestLoop q index none 0 with
      | mk ob bs =>
        rw [hb] at hlt
        cases ob with
        | none => rfl
        | some b =>
          have hcond : ¬(b ≠ "" ∧ t ≤ bs) := by
            intro hc
            exact absurd hc.2 (not_le.mpr hlt)
          show (if b ≠ "" ∧ t ≤ bs then some b else none) = none
          rw [if_neg hcond]
  · intro i r hget hq hfa ht0 ht1 hearlier
    have hi : i < index.length := by
      by_contra hc
      rw [List.get?_eq_none.mpr (by omega)] at hget
      cases hget
    have hr : index[i] = r := by
      have := hget
      rw [List.get?_eq_getElem? , List.getElem?_eq_getElem hi] at this
      exact Option.some_injective _ this
    have hsplit : index = index.take i ++ r :: index.drop (i + 1) := by
      conv_lhs => rw [← List.take_append_drop i index]
      rw [List.drop_eq_getElem_cons hi, hr]
    have hpre : ∀ r' ∈ index.take i,
        pyStartsWith r'.final_answer "FINAL_ANSWER:" = true →
        stringSimilarityS q r'.user_query < 1 := by
      intro r' hr' hp
      obtain ⟨j, hj⟩ := List.mem_iff_get?.mp hr'
      have hjlt : j < i := by
        by_contra hc
        rw [List.get?_eq_none.mpr
          (le_trans (List.length_take_le _ _) (by omega))] at hj
        cases hj
      rw [List.get?_take hjlt] at hj
      exact hearlier j r' hjlt hj hp
    have hne : ¬(index = []) := by
      intro hc
      rw [hc] at hget
      cases hget
    unfold find_best_cached_answer
    rw [if_neg hne]
    have hloop :
        findBestLoop q index none 0 = (some r.final_answer, 1) := by
      conv_lhs => rw [hsplit]
      exact findBestLoop_hits q r (index.drop (i + 1)) hq hfa
        (index.take i) none 0 (by norm_num) hpre
    rw [hloop]
    show (if r.final_answer ≠ "" ∧ t ≤ 1 then some r.final_answer else none) =
      some r.final_answer
    rw [if_pos ⟨startsWith_FA_ne_empty _ hfa, ht1⟩]

/-- Witness for the amended C6: a single-record store hit by an identical
query at threshold `1`. -/
theorem claim_C6_witness :
    find_best_cached_answer "what is foo" 1
      [⟨"s", 0, "what is foo", "FINAL_ANSWER: bar", [], [], [], []⟩] =
      some "FINAL_ANSWER: bar" :=
  (claim_C6_amended "what is foo" 1
    [⟨"s", 0, "what is foo", "FINAL_ANSWER: bar", [], [], [], []⟩]).2.2 0
    ⟨"s", 0, "what is foo", "FINAL_ANSWER: bar", [], [], [], []⟩
    (by decide) rfl (by decide) (by norm_num) (by norm_num)
    (fun j r' hj _ _ => absurd hj (by omega))

/-- Counterexample to C6 as stated: the query `"q"` is
character-for-character identical to the second record's `user_query`,
but an earlier record whose query differs only in case ties at
similarity `1.0`, so the function returns the earlier record's answer,
not that record's. -/
theorem claim_C6_counterexample :
    ([⟨"s", 0, "Q", "FINAL_ANSWER: X", [], [], [], []⟩,
      ⟨"s", 1, "q", "FINAL_ANSWER: Paris", [], [], [], []⟩] :
        List HistoricalExample).get? 1 =
      some ⟨"s", 1, "q", "FINAL_ANSWER: Paris", [], [], [], []⟩ ∧
    pyStartsWith "FINAL_ANSWER: Paris" "FINAL_ANSWER:" = true ∧
    (0 : ℚ) < 1 ∧ (1 : ℚ) ≤ 1 ∧
    find_best_cached_answer "q" 1
      [⟨"s", 0, "Q", "FINAL_ANSWER: X", [], [], [], []⟩,
        ⟨"s", 1, "q", "FINAL_ANSWER: Paris", [], [], [], []⟩] =
      some "FINAL_ANSWER: X" ∧
    find_best_cached_answer "q" 1
      [⟨"s", 0, "Q", "FINAL_ANSWER: X", [], [], [], []⟩,
        ⟨"s", 1, "q", "FINAL_ANSWER: Paris", [], [], [], []⟩] ≠
      some "FINAL_ANSWER: Paris" :=
  ⟨by decide, by decide, by norm_num, by norm_num, by decide, by decide⟩

end HAP
